import Mathlib

/-!
Shallow embedding of the Theia `@theia/output` channel subsystem, centred on
`OutputChannelManager` and `OutputChannel` (src/unnamed/part_008), together
with the `OutputUri` helpers (src/unnamed/part_007) and the `OutputResource`
adapter (src/unnamed/part_006).

Modelling conventions:
- The monaco text model backing a channel is a non-empty list of lines
  (`TextModel`); the empty buffer is `[""]`, as monaco always reports at
  least one (empty) line.  Text-level primitives (splitting inserted text on
  the end-of-line character, first-non-whitespace columns, ...) are written
  over `String.data` so that they evaluate inside the kernel.
- The system is single threaded and event handlers run synchronously to
  completion (spec section 5), so the emitter/listener wiring is embedded as
  direct function calls, in the exact order the source fires them.
- JavaScript `Map` is embedded as an insertion-ordered association list:
  `set` of a present key updates in place, `set` of an absent key appends,
  `delete` removes, and iteration follows insertion order.
- Object identity of `OutputChannel` instances (the source compares channels
  with `===`) is embedded as a ghost numeric `id`, drawn from a counter.
- Disposable collections (`toDisposeOnChannelDeletion`) are embedded as data:
  the three disposables pushed by `registerListener` become `DisposeAction`
  values that `deleteChannel` executes.
-/

/-! ## Monaco text model: lines of a channel buffer -/

/-- A monaco `ITextModel` buffer, as its list of lines.  The empty model is
`[""]`: monaco always has at least one line. -/
abbrev TextModel := List String

/-- The empty text model (one empty line). -/
def TextModel.empty : TextModel := [""]

/-- Splits a character list at every occurrence of `sep`, JavaScript
`String.prototype.split` style: always returns at least one (possibly empty)
segment, and adjacent separators yield empty segments. -/
def splitCharsOn (sep : Char) : List Char → List (List Char)
  | [] => [[]]
  | c :: rest =>
    let r := splitCharsOn sep rest
    if c = sep then [] :: r
    else (c :: r.headD []) :: r.tail

/-- Splits a text into the lines it contributes to the model (monaco splits
inserted text at end-of-line characters; the embedding uses LF, monaco's
default EOL for these models). -/
def splitLines (s : String) : List String :=
  (splitCharsOn '\n' s.data).map String.mk

/-- Drops the first `n` characters of a line (used for the column arithmetic
of a monaco range deletion). -/
def dropChars (s : String) (n : Nat) : String :=
  String.mk (s.data.drop n)

/-- Monaco `getLineFirstNonWhitespaceColumn`: the one-based column of the
first character that is not a space or a tab, or `0` if the line is empty or
consists only of whitespace. -/
def firstNonWhitespaceColumn (line : String) : Nat :=
  match line.data.findIdx? (fun c => !(c == ' ' || c == '\t')) with
  | some i => i + 1
  | none => 0

/-- Monaco `getValue`: the buffer contents, lines joined by the EOL. -/
def TextModel.getValue (m : TextModel) : String :=
  String.intercalate "\n" m

/-- Monaco `getLineCount`. -/
def TextModel.getLineCount (m : TextModel) : Nat := m.length

/-- One run of `OutputChannel.handleDidChangeContent` (part_008, lines
271-287): computes `linesToRemove = getLineCount() - maxLineNumber + 1` and,
when positive, deletes the range from `(1, 1)` to
`(linesToRemove, getLineFirstNonWhitespaceColumn(linesToRemove))` — that is,
the first `linesToRemove - 1` whole lines plus the leading whitespace of line
`linesToRemove` (monaco clamps column `0` of an all-whitespace line back to
`1`, which the truncated subtraction `endColumn - 1` reproduces).  Monaco
validates the line number of a range; the `getD` default is only reachable
when `maxLineNumber = 0`, a configuration the claims exclude. -/
def handleDidChangeContent (maxLineNumber : Nat) (m : TextModel) : TextModel :=
  let linesToRemove : Int := (m.length : Int) - (maxLineNumber : Int) + 1
  if 0 < linesToRemove then
    let L := linesToRemove.toNat
    let lineL := m.getD (L - 1) ""
    let endColumn := firstNonWhitespaceColumn lineL
    dropChars lineL (endColumn - 1) :: m.drop L
  else m

/-- Fueled fixpoint of `handleDidChangeContent`: the trimming edit itself
fires `onDidChangeContent` again, so the handler re-runs until it no longer
changes the buffer (monaco does not emit a change event for a no-op edit).
The fuel is only a termination bound; the cascade settles after at most two
effective steps. -/
def settleContentEvents : Nat → Nat → TextModel → TextModel
  | 0, _, m => m
  | fuel + 1, maxL, m =>
    let m2 := handleDidChangeContent maxL m
    if m2 = m then m else settleContentEvents fuel maxL m2

/-- Total number of characters plus lines, an upper bound on the number of
effective trimming steps. -/
def TextModel.size (m : TextModel) : Nat :=
  m.length + (m.map String.length).sum

/-- A content change event and the whole synchronous cascade it triggers. -/
def contentChanged (maxL : Nat) (m : TextModel) : TextModel :=
  settleContentEvents (m.size + 1) maxL m

/-- Monaco `applyEdits` of an insertion at `(lastLine, lastLineMaxColumn)`:
the first segment of the inserted text extends the last line, the remaining
segments become new lines. -/
def TextModel.insertAtEnd (m : TextModel) (text : String) : TextModel :=
  let segs := splitLines text
  m.dropLast ++ [(m.getLastD "") ++ segs.headD ""] ++ segs.tail

/-- `OutputChannel.append` (part_008, lines 301-326): inserts `text` at the
end position of the model; the subsequent `onDidChangeContent` event runs the
trimming handler.  Severity only adds presentational decorations and does not
change the buffer. -/
def OutputChannel.append (maxL : Nat) (m : TextModel) (text : String) : TextModel :=
  contentChanged maxL (m.insertAtEnd text)

/-- `OutputChannel.appendLine` (part_008, lines 328-333): prepends the EOL
when the buffer is not empty (`!textModel.getValue()`), then appends. -/
def OutputChannel.appendLine (maxL : Nat) (m : TextModel) (line : String) : TextModel :=
  let eol := if m.getValue = "" then "" else "\n"
  OutputChannel.append maxL m (eol ++ line)

/-- `OutputChannel.clear` (part_008, lines 335-337): `setValue('')`, which
also fires a content change event. -/
def OutputChannel.clear (maxL : Nat) (_m : TextModel) : TextModel :=
  contentChanged maxL TextModel.empty

/-- A buffer operation of the channel (claim C8). -/
inductive BufferOp where
  | append (text : String)
  | appendLine (line : String)
  | clear
deriving DecidableEq

/-- Runs one buffer operation. -/
def applyBufferOp (maxL : Nat) (m : TextModel) : BufferOp → TextModel
  | .append text => OutputChannel.append maxL m text
  | .appendLine line => OutputChannel.appendLine maxL m line
  | .clear => OutputChannel.clear maxL m

/-- Runs a sequence of buffer operations on an initially empty channel. -/
def runBufferOps (maxL : Nat) (ops : List BufferOp) : TextModel :=
  ops.foldl (applyBufferOp maxL) TextModel.empty

/-- Folds `appendLine` over a list of lines, starting from the empty buffer
(the scenario of claim C2). -/
def appendLines (maxL : Nat) (ls : List String) : TextModel :=
  ls.foldl (OutputChannel.appendLine maxL) TextModel.empty

/-- A line is plain when it is non-empty, contains no EOL, and does not start
with whitespace.  The `splitCharsOn` facts are the line-level consequences
used by the proofs. -/
abbrev PlainLine (l : String) : Prop :=
  l ≠ "" ∧ splitCharsOn '\n' l.data = [l.data] ∧ firstNonWhitespaceColumn l = 1

/-- The 25 lines appended in the worked example of claim C2. -/
def exampleLines : List String :=
  ["line1", "line2", "line3", "line4", "line5", "line6", "line7", "line8",
   "line9", "line10", "line11", "line12", "line13", "line14", "line15",
   "line16", "line17", "line18", "line19", "line20", "line21", "line22",
   "line23", "line24", "line25"]

/-! ## URIs and resources -/

/-- A Theia URI, restricted to the scheme/path data the output feature
uses.  `toStr` mirrors `uri.toString()`. -/
structure URI where
  scheme : String
  path : String
deriving DecidableEq

/-- Rendering used as the key of the resource registry (`uri.toString()`). -/
def URI.toStr (u : URI) : String := u.scheme ++ ":" ++ u.path

/-- `OutputUri.SCHEME` (part_007). -/
def OutputUri.SCHEME : String := "output"

/-- `OutputUri.create(name)` (part_007): a URI with the `output` scheme whose
path is the channel name. -/
def OutputUri.create (name : String) : URI :=
  { scheme := OutputUri.SCHEME, path := name }

/-- `OutputUri.is(uri)` (part_007): scheme test. -/
def OutputUri.isOutput (u : URI) : Bool := u.scheme == OutputUri.SCHEME

/-- Modelled from the spec: `OutputUri.channelName` is called by the source
(part_008 line 290) but its definition is not in the repository slice; the
spec (section 6) fixes the URI scheme for channel resources as
`output:<channel-name>`, so the channel name is the path of the URI. -/
def OutputUri.channelName (u : URI) : String := u.path

/-- An `OutputResource` (part_006): the registry only needs its URI; the
deferred editor model is represented by the buffer semantics above. -/
structure OutputResource where
  uri : URI
deriving DecidableEq

/-! ## Channels and the manager -/

/-- Manager-level view of an `OutputChannel` (part_008, lines 234-352): the
ghost `id` stands for object identity, `uri` is the URI of the backing
resource, `visible` is the private flag initialised to `true`. -/
structure OutputChannel where
  id : Nat
  uri : URI
  visible : Bool
deriving DecidableEq

/-- `OutputChannel.name` getter: `OutputUri.channelName(this.uri)`. -/
def OutputChannel.name (c : OutputChannel) : String := OutputUri.channelName c.uri

/-- `OutputChannel.isVisible` getter. -/
def OutputChannel.isVisible (c : OutputChannel) : Bool := c.visible

/-- One disposable pushed on `toDisposeOnChannelDeletion` by
`registerListener` (part_008, lines 130-149): the channel itself, the
visibility-change listener, and the closure that disposes and unregisters
the output resource. -/
inductive DisposeAction where
  | disposeChannelObject (id : Nat)
  | disposeVisibilityListener (id : Nat)
  | disposeResource (uriStr : String)
deriving DecidableEq

/-- Lookup in an insertion-ordered association list (JavaScript `Map.get`). -/
def assocGet (k : String) : List (String × α) → Option α
  | [] => none
  | (k2, v) :: rest => if k2 = k then some v else assocGet k rest

/-- JavaScript `Map.set`: updates in place when the key is present, appends
otherwise. -/
def assocSet (k : String) (v : α) : List (String × α) → List (String × α)
  | [] => [(k, v)]
  | (k2, v2) :: rest =>
    if k2 = k then (k, v) :: rest else (k2, v2) :: assocSet k v rest

/-- JavaScript `Map.delete`. -/
def assocDelete (k : String) : List (String × α) → List (String × α)
  | [] => []
  | (k2, v2) :: rest =>
    if k2 = k then rest else (k2, v2) :: assocDelete k rest

/-- State of an `OutputChannelManager` (part_008, lines 33-226).
`disposedUris` is a ghost log of the resources whose `dispose()` ran. -/
structure OutputChannelManager where
  channels : List (String × OutputChannel)
  resources : List (String × OutputResource)
  selected : Option (Nat × String)
  visibilityListeners : List Nat
  toDisposeOnChannelDeletion : List (String × List DisposeAction)
  disposedUris : List String
  nextId : Nat
deriving DecidableEq

/-- The manager right after construction: every map empty, nothing
selected. -/
def OutputChannelManager.init : OutputChannelManager :=
  { channels := [], resources := [], selected := none,
    visibilityListeners := [], toDisposeOnChannelDeletion := [],
    disposedUris := [], nextId := 0 }

/-- Externally observable manager events (the three emitters). -/
inductive MEvent where
  | channelAdded (name : String)
  | channelDeleted (name : String)
  | selectedChannelChanged (name : Option String)
deriving DecidableEq

/-- Recognises a selected-channel-changed notification. -/
def MEvent.isSelectedChanged : MEvent → Bool
  | .selectedChannelChanged _ => true
  | _ => false

/-- The `selectedChannel` setter (part_008, lines 206-210): stores the new
value and always fires `selectedChannelChanged` with the new name (or its
absence). -/
def OutputChannelManager.setSelectedChannel (st : OutputChannelManager)
    (c : Option (Nat × String)) : OutputChannelManager × List MEvent :=
  ({ st with selected := c }, [.selectedChannelChanged (c.map (fun p => p.2))])

/-- `getChannels()` (part_008, lines 190-192): values in insertion order. -/
def OutputChannelManager.getChannels (st : OutputChannelManager) : List OutputChannel :=
  st.channels.map (fun p => p.2)

/-- `getVisibleChannels()` (part_008, lines 194-196). -/
def OutputChannelManager.getVisibleChannels (st : OutputChannelManager) : List OutputChannel :=
  st.getChannels.filter (fun c => c.isVisible)

/-- `registerListener(outputChannel)` (part_008, lines 120-150): selects the
channel when nothing is selected, then pushes the three disposables on the
(possibly recycled) per-name disposable collection and installs the
visibility listener. -/
def OutputChannelManager.registerListener (st : OutputChannelManager)
    (c : OutputChannel) : OutputChannelManager × List MEvent :=
  let name := c.name
  let r :=
    if st.selected = none then st.setSelectedChannel (some (c.id, name)) else (st, [])
  let st1 := r.1
  let existing := (assocGet name st1.toDisposeOnChannelDeletion).getD []
  let acts := existing ++
    [DisposeAction.disposeChannelObject c.id,
     DisposeAction.disposeVisibilityListener c.id,
     DisposeAction.disposeResource (OutputUri.create name).toStr]
  ({ st1 with
      toDisposeOnChannelDeletion := assocSet name acts st1.toDisposeOnChannelDeletion,
      visibilityListeners := st1.visibilityListeners ++ [c.id] }, r.2)

/-- `getChannel(name)` (part_008, lines 152-174): returns the existing
channel, or registers a resource (unless one is already registered under the
URI), creates the channel, stores it, and fires `channelAdded` — whose
handler (installed in `init`, line 65) immediately runs `registerListener`
on the new channel. -/
def OutputChannelManager.getChannel (st : OutputChannelManager) (name : String) :
    OutputChannel × OutputChannelManager × List MEvent :=
  match assocGet name st.channels with
  | some existing => (existing, st, [])
  | none =>
    let uri := OutputUri.create name
    let rs :=
      match assocGet uri.toStr st.resources with
      | some r => (r, st)
      | none =>
        let r : OutputResource := { uri := uri }
        (r, { st with resources := assocSet uri.toStr r st.resources })
    let resource := rs.1
    let st1 := rs.2
    let channel : OutputChannel := { id := st1.nextId, uri := resource.uri, visible := true }
    let st2 := { st1 with
      channels := assocSet name channel st1.channels, nextId := st1.nextId + 1 }
    let r := st2.registerListener channel
    (channel, r.1, .channelAdded name :: r.2)

/-- Executes one disposable (part_008, lines 130-148).  Disposing the channel
object only tears down its own emitters; disposing the visibility listener
detaches the manager handler; the resource disposable looks the resource up
by URI, disposes it and removes it from the registry (or warns). -/
def OutputChannelManager.runDisposeAction (st : OutputChannelManager) :
    DisposeAction → OutputChannelManager
  | .disposeChannelObject _ => st
  | .disposeVisibilityListener i =>
    { st with visibilityListeners := st.visibilityListeners.filter (fun j => j ≠ i) }
  | .disposeResource u =>
    match assocGet u st.resources with
    | some _ =>
      { st with resources := assocDelete u st.resources,
                disposedUris := st.disposedUris ++ [u] }
    | none => st

/-- The `onChannelDeleted` listener installed in `init` (part_008, lines
66-70): when the deleted channel was the selected one (compared by name),
the selection moves to the first visible channel, or to none. -/
def channelDeletedHandler (st : OutputChannelManager) (name : String) :
    OutputChannelManager × List MEvent :=
  match st.selected with
  | some (_, selName) =>
    if selName = name then
      st.setSelectedChannel
        ((st.getVisibleChannels.head?).map (fun c2 => (c2.id, c2.name)))
    else (st, [])
  | none => (st, [])

/-- `deleteChannel(name)` (part_008, lines 176-188): warns and returns when
the channel is unknown; otherwise removes it from the map, disposes the
per-name collection (`DisposableCollection.dispose` pops from the end and
leaves the collection empty), and fires `channelDeleted`, which runs
`channelDeletedHandler`. -/
def OutputChannelManager.deleteChannel (st : OutputChannelManager) (name : String) :
    OutputChannelManager × List MEvent :=
  match assocGet name st.channels with
  | none => (st, [])
  | some _ =>
    let st1 := { st with channels := assocDelete name st.channels }
    let acts := (assocGet name st1.toDisposeOnChannelDeletion).getD []
    let st2 := acts.reverse.foldl OutputChannelManager.runDisposeAction st1
    let st3 := { st2 with
      toDisposeOnChannelDeletion := assocSet name [] st2.toDisposeOnChannelDeletion }
    let r := channelDeletedHandler st3 name
    (r.1, .channelDeleted name :: r.2)

/-- `OutputChannel.setVisibility(visible)` on the channel stored under
`name`, together with the `onVisibilityChange` listener the manager
installed (part_008, lines 339-342 and 131-137): the flag is set first, the
event then selects the channel when it became visible, and falls back to the
first visible channel when the hidden channel was the selected one (compared
by object identity).  A channel whose listener was disposed only changes its
flag. -/
def visibilityChangeHandler (st : OutputChannelManager) (c : OutputChannel)
    (visible : Bool) : OutputChannelManager × List MEvent :=
  if visible then st.setSelectedChannel (some (c.id, c.name))
  else if st.selected.map (fun p => p.1) = some c.id then
    st.setSelectedChannel
      ((st.getVisibleChannels.head?).map (fun c3 => (c3.id, c3.name)))
  else (st, [])

/-- See the doc comment right above `visibilityChangeHandler` and part_008,
lines 339-342 and 131-137. -/
def OutputChannelManager.setVisibility (st : OutputChannelManager) (name : String)
    (visible : Bool) : OutputChannelManager × List MEvent :=
  match assocGet name st.channels with
  | none => (st, [])
  | some c =>
    let c2 := { c with visible := visible }
    let st1 := { st with channels := assocSet name c2 st.channels }
    if st1.visibilityListeners.contains c.id then visibilityChangeHandler st1 c2 visible
    else (st1, [])

/-- `resolve(uri)` errors (part_008, lines 215-224): a wrong scheme is an
invalid-argument error, a missing registration a not-found error. -/
inductive ResolveError where
  | invalidArgument (msg : String)
  | notFound (msg : String)
deriving DecidableEq

/-- `resolve(uri)` (part_008, lines 215-224). -/
def OutputChannelManager.resolve (st : OutputChannelManager) (u : URI) :
    Except ResolveError OutputResource :=
  if !OutputUri.isOutput u then
    .error (.invalidArgument
      ("Expected '" ++ OutputUri.SCHEME ++ "' URI scheme. Got: " ++ u.toStr ++ " instead."))
  else
    match assocGet u.toStr st.resources with
    | none => .error (.notFound ("No output resource was registered with URI: " ++ u.toStr))
    | some r => .ok r

/-- A registry operation (claim C3). -/
inductive ManagerOp where
  | getChannel (name : String)
  | deleteChannel (name : String)
  | setVisibility (name : String) (visible : Bool)
deriving DecidableEq

/-- Applies one registry operation, discarding the returned channel and
events. -/
def applyManagerOp (st : OutputChannelManager) : ManagerOp → OutputChannelManager
  | .getChannel n => (st.getChannel n).2.1
  | .deleteChannel n => (st.deleteChannel n).1
  | .setVisibility n v => (st.setVisibility n v).1

/-- Runs a sequence of registry operations from the empty registry. -/
def runManagerOps (ops : List ManagerOp) : OutputChannelManager :=
  ops.foldl applyManagerOp OutputChannelManager.init

/-! ## Lock persistence (claim C4)

Modelled from the spec: the per-channel lock flag and its persistence are
referenced by the widgets in the repository slice (`channel.isLocked` in
part_000 and part_002) but their implementation is not under src/.  Spec
section 3: the locked-channel set is "a persisted set of channel names whose
auto-scroll is disabled; restored at startup before any channel listener
registration, saved at shutdown by scanning current channels for the locked
flag"; section 4.1 repeats that shutdown persists the list "derived by
filtering live channels, not the original restore set". -/

/-- Modelled from the spec: a channel as the lock-persistence logic sees it,
a name with a mutable lock flag. -/
structure LockChannel where
  name : String
  locked : Bool
deriving DecidableEq

/-- Modelled from the spec: observable startup steps, used to state that the
persisted set is loaded before any per-channel listener registration. -/
inductive StartupStep where
  | loadLockedSet (stored : List String)
  | registerChannelListener (name : String)
deriving DecidableEq

/-- Modelled from the spec: startup loads the persisted locked-channel set
and only then registers the per-channel listeners; each restored channel is
locked exactly when its name is in the stored set. -/
def lockStartup (stored : List String) (channelNames : List String) :
    List StartupStep × List LockChannel :=
  (StartupStep.loadLockedSet stored ::
      channelNames.map StartupStep.registerChannelListener,
   channelNames.map (fun n => { name := n, locked := stored.contains n }))

/-- Modelled from the spec: a runtime lock toggle (`toggleLocked`) on the
channel with the given name. -/
def toggleLocked (cs : List LockChannel) (n : String) : List LockChannel :=
  cs.map (fun c => if c.name = n then { c with locked := !c.locked } else c)

/-- Modelled from the spec: shutdown persists the names of the channels
whose lock flag is set at that moment, by scanning the live channels. -/
def lockShutdownPersist (cs : List LockChannel) : List String :=
  (cs.filter (fun c => c.locked)).map (fun c => c.name)


/-- Iterated `getChannel` calls with a fixed name (claim C5): entry `k` is
the channel and state after the `k+1`-st call. -/
def getChannelCalls (st : OutputChannelManager) (name : String) :
    Nat → OutputChannel × OutputChannelManager
  | 0 => ((st.getChannel name).1, (st.getChannel name).2.1)
  | k + 1 =>
    let prev := getChannelCalls st name k
    ((prev.2.getChannel name).1, (prev.2.getChannel name).2.1)

/-- Invariant of every reachable registry state (claim C3).  `selectedOk` is
the claimed property; the remaining components are the bookkeeping facts
needed to push it through the three operations: every live channel has a live
visibility listener, its disposable collection holds exactly its three
disposables, ghost identities are bounded by the counter and distinct, the
name of a channel matches its key, keys are unique, and every registered
resource is stored under the rendering of its own output URI. -/
structure ManagerInv (st : OutputChannelManager) : Prop where
  selectedOk : ∀ i nm, st.selected = some (i, nm) →
    ∃ c, assocGet nm st.channels = some c ∧ c.id = i ∧ c.visible = true
  listenersOk : ∀ nm c, assocGet nm st.channels = some c →
    st.visibilityListeners.contains c.id = true
  actsOk : ∀ nm c, assocGet nm st.channels = some c →
    assocGet nm st.toDisposeOnChannelDeletion =
      some [DisposeAction.disposeChannelObject c.id,
            DisposeAction.disposeVisibilityListener c.id,
            DisposeAction.disposeResource (OutputUri.create nm).toStr]
  actsEmpty : ∀ nm, assocGet nm st.channels = none →
    assocGet nm st.toDisposeOnChannelDeletion = none ∨
      assocGet nm st.toDisposeOnChannelDeletion = some []
  idsBound : ∀ nm c, assocGet nm st.channels = some c → c.id < st.nextId
  idsInj : ∀ nm1 nm2 c1 c2, assocGet nm1 st.channels = some c1 →
    assocGet nm2 st.channels = some c2 → c1.id = c2.id → nm1 = nm2
  keysMatch : ∀ nm c, assocGet nm st.channels = some c → c.name = nm
  keysNodup : (st.channels.map Prod.fst).Nodup
  resourcesOk : ∀ p ∈ st.resources, p.2.uri.scheme = OutputUri.SCHEME ∧
    p.2.uri.toStr = p.1

/-! ## Lemmas about the text model -/

theorem stringMk_data (s : String) : String.mk s.data = s := rfl

theorem string_length_pos_of_ne (s : String) (h : s ≠ "") : 0 < s.length := by
  rcases Nat.eq_zero_or_pos s.length with h0 | hpos
  · exact absurd (String.ext (List.length_eq_zero.mp h0)) h
  · exact hpos

theorem string_ne_of_length_pos (s : String) (h : 0 < s.length) : s ≠ "" := by
  intro heq
  rw [heq] at h
  simp at h

theorem intercalate_go_ne_empty (sep : String) :
    ∀ (r : List String) (acc : String), acc ≠ "" → String.intercalate.go acc sep r ≠ "" := by
  intro r
  induction r with
  | nil => intro acc hacc; simpa [String.intercalate.go] using hacc
  | cons a as ih =>
    intro acc hacc
    simp only [String.intercalate.go]
    refine ih (acc ++ sep ++ a) ?_
    apply string_ne_of_length_pos
    have := string_length_pos_of_ne acc hacc
    simp only [String.length_append]
    omega

theorem getValue_cons_ne (a : String) (r : List String) (ha : a ≠ "") :
    TextModel.getValue (a :: r) ≠ "" := by
  simpa [TextModel.getValue, String.intercalate] using intercalate_go_ne_empty "\n" r a ha

theorem handle_eq_of_lt (maxL : Nat) (m : TextModel) (h : m.length < maxL) :
    handleDidChangeContent maxL m = m := by
  unfold handleDidChangeContent
  rw [if_neg]
  omega

theorem handle_eq_of_le (maxL : Nat) (m : TextModel)
    (h : m.length ≤ maxL) (hne : m ≠ [])
    (hh : firstNonWhitespaceColumn (m.headD "") = 1) :
    handleDidChangeContent maxL m = m := by
  rcases Nat.lt_or_ge m.length maxL with hlt | hge
  · exact handle_eq_of_lt maxL m hlt
  have hlen : m.length = maxL := Nat.le_antisymm h hge
  rcases m with _ | ⟨a, r⟩
  · exact absurd rfl hne
  unfold handleDidChangeContent
  rw [if_pos (by omega)]
  have hL : ((((a :: r : List String).length : Int) - (maxL : Int) + 1)).toNat = 1 := by
    omega
  simp only [hL, Nat.sub_self, List.getD_cons_zero, List.drop_succ_cons, List.drop_zero]
  have hcol : firstNonWhitespaceColumn a = 1 := by simpa using hh
  rw [hcol]
  simp [dropChars, stringMk_data]

theorem handle_eq_tail (maxL : Nat) (m : TextModel) (h1 : 1 ≤ maxL)
    (h : m.length = maxL + 1)
    (h2 : firstNonWhitespaceColumn (m.getD 1 "") = 1) :
    handleDidChangeContent maxL m = m.tail := by
  rcases m with _ | ⟨a, r⟩
  · simp at h
  rcases r with _ | ⟨b, r2⟩
  · simp at h; omega
  unfold handleDidChangeContent
  rw [if_pos (by omega)]
  have hL : ((((a :: b :: r2 : List String).length : Int) - (maxL : Int) + 1)).toNat = 2 := by
    omega
  simp only [hL, List.getD_cons_succ, List.getD_cons_zero, List.drop_succ_cons, List.drop_zero]
  have hcol : firstNonWhitespaceColumn b = 1 := by
    simpa using h2
  rw [hcol]
  simp [dropChars, stringMk_data]

theorem handle_length_of_ge (maxL : Nat) (m : TextModel) (h1 : 1 ≤ maxL)
    (h : maxL ≤ m.length) : (handleDidChangeContent maxL m).length = maxL := by
  unfold handleDidChangeContent
  have hlen : 1 ≤ m.length := le_trans h1 h
  rw [if_pos (by omega)]
  have hL : (((m.length : Int) - (maxL : Int) + 1)).toNat = m.length + 1 - maxL := by
    omega
  simp only [hL, List.length_cons, List.length_drop]
  omega

theorem handle_length_le (maxL : Nat) (m : TextModel) (h1 : 1 ≤ maxL) :
    (handleDidChangeContent maxL m).length ≤ maxL ∨ handleDidChangeContent maxL m = m := by
  rcases Nat.lt_or_ge m.length maxL with hlt | hge
  · exact Or.inr (handle_eq_of_lt maxL m hlt)
  · exact Or.inl (le_of_eq (handle_length_of_ge maxL m h1 hge))

theorem handle_ne_of_gt (maxL : Nat) (m : TextModel) (h1 : 1 ≤ maxL)
    (h : maxL < m.length) : handleDidChangeContent maxL m ≠ m := by
  intro heq
  have := handle_length_of_ge maxL m h1 (Nat.le_of_lt h)
  rw [heq] at this
  omega

theorem settle_fix (fuel maxL : Nat) (m : TextModel)
    (h : handleDidChangeContent maxL m = m) :
    settleContentEvents fuel maxL m = m := by
  cases fuel with
  | zero => rfl
  | succ f => simp [settleContentEvents, h]

theorem settle_length_le_aux (fuel maxL : Nat) (h1 : 1 ≤ maxL) :
    ∀ m : TextModel, m.length ≤ maxL → (settleContentEvents fuel maxL m).length ≤ maxL := by
  induction fuel with
  | zero => intro m hm; exact hm
  | succ f ih =>
    intro m hm
    simp only [settleContentEvents]
    by_cases hfix : handleDidChangeContent maxL m = m
    · simp [hfix, hm]
    · rw [if_neg hfix]
      rcases handle_length_le maxL m h1 with hle | heq
      · exact ih _ hle
      · exact absurd heq hfix

theorem settle_length_le_of_pos (fuel maxL : Nat) (m : TextModel) (h1 : 1 ≤ maxL)
    (hf : 1 ≤ fuel) : (settleContentEvents fuel maxL m).length ≤ maxL := by
  cases fuel with
  | zero => omega
  | succ f =>
    simp only [settleContentEvents]
    by_cases hfix : handleDidChangeContent maxL m = m
    · rw [if_pos hfix]
      by_contra hgt
      exact handle_ne_of_gt maxL m h1 (by omega) hfix
    · rw [if_neg hfix]
      apply settle_length_le_aux f maxL h1
      rcases Nat.lt_or_ge m.length maxL with hlt | hge
      · exact absurd (handle_eq_of_lt maxL m hlt) hfix
      · rw [handle_length_of_ge maxL m h1 hge]

theorem contentChanged_length_le (maxL : Nat) (m : TextModel) (h1 : 1 ≤ maxL) :
    (contentChanged maxL m).length ≤ maxL :=
  settle_length_le_of_pos (m.size + 1) maxL m h1 (by omega)

theorem splitCharsOn_cons_sep (sep : Char) (rest : List Char) :
    splitCharsOn sep (sep :: rest) = [] :: splitCharsOn sep rest := by
  simp [splitCharsOn]

theorem insertAtEnd_newline (m : TextModel) (l : String) (hm : m ≠ [])
    (hsplit : splitCharsOn '\n' l.data = [l.data]) :
    m.insertAtEnd ("\n" ++ l) = m ++ [l] := by
  have hdata : ("\n" ++ l).data = '\n' :: l.data := by
    rw [String.data_append]
    rfl
  have hsegs : splitLines ("\n" ++ l) = ["", l] := by
    rw [splitLines, hdata, splitCharsOn_cons_sep, hsplit]
    show [String.mk [], String.mk l.data] = ["", l]
    rw [stringMk_data]
  simp only [TextModel.insertAtEnd, hsegs, List.headD, List.tail, String.append_empty]
  have hlast : m.getLastD "" = m.getLast hm := by
    simp [List.getLastD_eq_getLast?, List.getLast?_eq_getLast m hm]
  rw [hlast, List.dropLast_concat_getLast hm]

theorem appendLine_empty_plain (maxL : Nat) (l : String) (h1 : 1 ≤ maxL)
    (hl : PlainLine l) :
    OutputChannel.appendLine maxL TextModel.empty l = [l] := by
  have h0 : OutputChannel.appendLine maxL TextModel.empty l
      = OutputChannel.append maxL TextModel.empty ("" ++ l) := rfl
  have hins : TextModel.insertAtEnd TextModel.empty l = [l] := by
    have hsegs : splitLines l = [l] := by
      rw [splitLines, hl.2.1]
      show [String.mk l.data] = [l]
      rw [stringMk_data]
    simp [TextModel.insertAtEnd, hsegs, TextModel.empty]
  rw [h0, String.empty_append, OutputChannel.append, hins]
  exact settle_fix _ maxL [l]
    (handle_eq_of_le maxL [l] (by simpa using h1) (by simp) (by simpa using hl.2.2))

theorem appendLine_plain_step (maxL : Nat) (m : TextModel) (l : String) (h1 : 1 ≤ maxL)
    (hm : m ≠ []) (hml : m.length ≤ maxL) (hmp : ∀ x ∈ m, PlainLine x)
    (hl : PlainLine l) :
    OutputChannel.appendLine maxL m l =
      if m.length < maxL then m ++ [l] else (m ++ [l]).tail := by
  rcases m with _ | ⟨a, r⟩
  · exact absurd rfl hm
  have ha : PlainLine a := hmp a (List.mem_cons_self a r)
  have hval : TextModel.getValue (a :: r) ≠ "" := getValue_cons_ne a r ha.1
  have hins : TextModel.insertAtEnd (a :: r) ("\n" ++ l) = (a :: r) ++ [l] :=
    insertAtEnd_newline (a :: r) l (by simp) hl.2.1
  simp only [OutputChannel.appendLine, if_neg hval, OutputChannel.append, hins]
  rcases Nat.lt_or_ge (a :: r).length maxL with hlt | hge
  · rw [if_pos hlt]
    apply settle_fix
    apply handle_eq_of_le maxL ((a :: r) ++ [l])
    · simp only [List.length_append, List.length_cons, List.length_nil] at hlt ⊢
      omega
    · simp
    · simpa using ha.2.2
  · have hlen : (a :: r).length = maxL := Nat.le_antisymm hml hge
    rw [if_neg (by omega)]
    have hsecond : PlainLine ((r ++ [l]).headD "") := by
      rcases r with _ | ⟨b, r2⟩
      · simpa using hl
      · simpa using hmp b (by simp)
    have hgd : ((a :: r) ++ [l]).getD 1 "" = (r ++ [l]).headD "" := by
      rcases r with _ | ⟨b, r2⟩ <;> simp [List.getD]
    have hstep : handleDidChangeContent maxL ((a :: r) ++ [l]) = ((a :: r) ++ [l]).tail := by
      apply handle_eq_tail maxL _ h1
      · simp only [List.length_append, List.length_cons, List.length_nil] at hlen ⊢
        omega
      · rw [hgd]
        exact hsecond.2.2
    have htail : ((a :: r) ++ [l]).tail = r ++ [l] := by simp
    have hne2 : handleDidChangeContent maxL ((a :: r) ++ [l]) ≠ (a :: r) ++ [l] := by
      rw [hstep, htail]
      intro heq
      have := congrArg List.length heq
      simp at this
    show settleContentEvents (TextModel.size ((a :: r) ++ [l]) + 1) maxL ((a :: r) ++ [l]) =
      ((a :: r) ++ [l]).tail
    have hunfold : settleContentEvents (TextModel.size ((a :: r) ++ [l]) + 1) maxL
          ((a :: r) ++ [l])
        = settleContentEvents (TextModel.size ((a :: r) ++ [l])) maxL
          (handleDidChangeContent maxL ((a :: r) ++ [l])) := by
      simp only [settleContentEvents, if_neg hne2]
    rw [hunfold, hstep, htail]
    apply settle_fix
    apply handle_eq_of_le maxL (r ++ [l])
    · simp only [List.length_append, List.length_cons, List.length_nil] at hlen ⊢
      omega
    · simp
    · exact hsecond.2.2

theorem appendLines_plain (maxL : Nat) (ls : List String) (h1 : 1 ≤ maxL)
    (hne : ls ≠ []) (hp : ∀ l ∈ ls, PlainLine l) :
    appendLines maxL ls = ls.drop (ls.length - maxL) := by
  induction ls using List.reverseRecOn with
  | nil => exact absurd rfl hne
  | append_singleton ls l ih =>
    rcases eq_or_ne ls [] with hnil | hls
    · subst hnil
      have hl : PlainLine l := hp l (by simp)
      simp only [appendLines, List.nil_append, List.foldl_cons, List.foldl_nil]
      rw [appendLine_empty_plain maxL l h1 hl]
      rw [show ([l] : List String).length - maxL = 0 by simpa using Nat.sub_eq_zero_of_le h1,
        List.drop_zero]
    · have hp2 : ∀ x ∈ ls, PlainLine x := fun x hx => hp x (by simp [hx])
      have hih := ih hls hp2
      have hl : PlainLine l := hp l (by simp)
      have hfold : appendLines maxL (ls ++ [l]) =
          OutputChannel.appendLine maxL (appendLines maxL ls) l := by
        simp [appendLines, List.foldl_append]
      have hlslen : 1 ≤ ls.length := List.length_pos.mpr hls
      have hmlen : (appendLines maxL ls).length = ls.length - (ls.length - maxL) := by
        rw [hih, List.length_drop]
      have hmne : appendLines maxL ls ≠ [] := by
        apply List.ne_nil_of_length_pos
        rw [hmlen]
        omega
      have hmle : (appendLines maxL ls).length ≤ maxL := by
        rw [hmlen]; omega
      have hmp : ∀ x ∈ appendLines maxL ls, PlainLine x := by
        rw [hih]
        intro x hx
        exact hp2 x (List.mem_of_mem_drop hx)
      rw [hfold, appendLine_plain_step maxL (appendLines maxL ls) l h1 hmne hmle hmp hl]
      rcases Nat.lt_or_ge (appendLines maxL ls).length maxL with hlt | hge
      · rw [if_pos hlt]
        have hlsmax : ls.length < maxL := by
          rw [hmlen] at hlt; omega
        rw [hih, Nat.sub_eq_zero_of_le (Nat.le_of_lt hlsmax), List.drop_zero]
        have : (ls ++ [l]).length - maxL = 0 := by simp; omega
        rw [this, List.drop_zero]
      · rw [if_neg (by omega)]
        have hmaxls : maxL ≤ ls.length := by
          by_contra hcon
          rw [hmlen] at hge
          omega
        rw [hih, ← List.drop_append_of_le_length (by omega), List.tail_drop]
        congr 1
        simp only [List.length_append, List.length_singleton]
        omega

theorem applyBufferOp_length_le (maxL : Nat) (m : TextModel) (op : BufferOp)
    (h1 : 1 ≤ maxL) : (applyBufferOp maxL m op).length ≤ maxL := by
  cases op <;> exact contentChanged_length_le maxL _ h1

theorem foldl_bufferOps_le (maxL : Nat) (h1 : 1 ≤ maxL) :
    ∀ (ops : List BufferOp) (m : TextModel), m.length ≤ maxL →
      (ops.foldl (applyBufferOp maxL) m).length ≤ maxL := by
  intro ops
  induction ops with
  | nil => intro m hm; exact hm
  | cons op rest ih =>
    intro m hm
    rw [List.foldl_cons]
    exact ih _ (applyBufferOp_length_le maxL m op h1)

/-- C8: for every channel and every sequence of append, appendLine and clear
operations starting from the empty buffer, after each content change and the
trimming it triggers have completed, the buffer line count never exceeds the
configured maximum line count (stated for every configured maximum of at
least one line; the code configures 20). -/
theorem runBufferOps_never_exceeds_max (maxL : Nat) (ops : List BufferOp)
    (h1 : 1 ≤ maxL) : (runBufferOps maxL ops).getLineCount ≤ maxL :=
  foldl_bufferOps_le maxL h1 ops TextModel.empty (by simpa [TextModel.empty] using h1)

/-- C8 witness: a concrete operation sequence at the configured maximum 20. -/
theorem runBufferOps_never_exceeds_max_witness :
    (runBufferOps 20 [BufferOp.appendLine "a", BufferOp.append "b\nc",
      BufferOp.clear, BufferOp.appendLine "d"]).getLineCount ≤ 20 :=
  runBufferOps_never_exceeds_max 20
    [BufferOp.appendLine "a", BufferOp.append "b\nc", BufferOp.clear,
      BufferOp.appendLine "d"] (by decide)

set_option maxRecDepth 10000 in
/-- C2 counterexample: with the maximum line count configured to 20,
appending the 25 example lines via appendLine leaves 20 lines in the buffer,
not 19, and the buffer does not hold lines 7 to 25 (the drop of the first
six). -/
theorem appendLines_example_claim_false :
    (appendLines 20 exampleLines).getLineCount = 20 ∧
    appendLines 20 exampleLines ≠ exampleLines.drop 6 := by
  constructor
  · decide
  · decide

set_option maxRecDepth 10000 in
/-- C2 (amended): with the maximum line count configured to 20, appending 25
lines via appendLine to an initially empty channel leaves the buffer holding
exactly the 20 most-recent lines, lines 6 to 25 inclusive; in general,
appending N non-empty single-line texts that do not start with whitespace
(as the worked example's lines are) retains exactly the min(N, max)
most-recent lines — in particular exactly max most-recent lines when N
exceeds the configured max, for any configured max of at least one line.
The two provisos are forced by the code and are witnessed by the last two
conjuncts: the trim strips the leading whitespace of the oldest retained
line, and appendLine of an empty string on an empty buffer leaves the buffer
empty. -/
theorem appendLines_retains_max_recent :
    (appendLines 20 exampleLines = exampleLines.drop 5 ∧
      (appendLines 20 exampleLines).getLineCount = 20) ∧
    (∀ (maxL : Nat) (ls : List String), 1 ≤ maxL → ls ≠ [] →
      (∀ l ∈ ls, PlainLine l) →
      appendLines maxL ls = ls.drop (ls.length - maxL)) ∧
    appendLines 2 ["  a", "  b", "  c"] = ["b", "  c"] ∧
    appendLines 2 ["", "", ""] = [""] := by
  refine ⟨⟨by decide, by decide⟩, ?_, by decide, by decide⟩
  intro maxL ls hmax hne hp
  exact appendLines_plain maxL ls hmax hne hp

/-- C2 witness: the amended general statement instantiated at maximum 2 with
three plain lines. -/
theorem appendLines_retains_max_recent_witness :
    appendLines 2 ["lineA", "lineB", "lineC"] = ["lineB", "lineC"] := by
  rw [appendLines_retains_max_recent.2.1 2 ["lineA", "lineB", "lineC"]
    (by decide) (by decide) (by decide)]
  decide

/-! ## Lemmas about the association-list maps -/

theorem assocGet_set_self (k : String) (v : α) (l : List (String × α)) :
    assocGet k (assocSet k v l) = some v := by
  induction l with
  | nil => simp [assocSet, assocGet]
  | cons p rest ih =>
    by_cases h : p.1 = k
    · simp [assocSet, assocGet, h]
    · simp only [assocSet]
      rw [if_neg (by simpa using h)]
      simp only [assocGet]
      rw [if_neg (by simpa using h)]
      exact ih

theorem assocGet_set_ne (k k2 : String) (v : α) (l : List (String × α)) (h : k ≠ k2) :
    assocGet k2 (assocSet k v l) = assocGet k2 l := by
  induction l with
  | nil => simp [assocSet, assocGet, h]
  | cons p rest ih =>
    by_cases hp : p.1 = k
    · simp only [assocSet]
      rw [if_pos (by simpa using hp)]
      simp only [assocGet]
      rw [if_neg h, if_neg (by rw [hp]; exact h)]
    · simp only [assocSet]
      rw [if_neg (by simpa using hp)]
      by_cases hp2 : p.1 = k2
      · simp [assocGet, hp2]
      · simp only [assocGet]
        rw [if_neg (by simpa using hp2), if_neg (by simpa using hp2)]
        exact ih

theorem assocGet_delete_ne (k k2 : String) (l : List (String × α)) (h : k ≠ k2) :
    assocGet k2 (assocDelete k l) = assocGet k2 l := by
  induction l with
  | nil => simp [assocDelete]
  | cons p rest ih =>
    by_cases hp : p.1 = k
    · simp only [assocDelete]
      rw [if_pos (by simpa using hp)]
      simp only [assocGet]
      rw [if_neg (by rw [hp]; exact h)]
    · simp only [assocDelete]
      rw [if_neg (by simpa using hp)]
      by_cases hp2 : p.1 = k2
      · simp [assocGet, hp2]
      · simp only [assocGet]
        rw [if_neg (by simpa using hp2), if_neg (by simpa using hp2)]
        exact ih

theorem assocGet_mem (k : String) (v : α) (l : List (String × α))
    (h : assocGet k l = some v) : (k, v) ∈ l := by
  induction l with
  | nil => simp [assocGet] at h
  | cons p rest ih =>
    by_cases hp : p.1 = k
    · simp only [assocGet] at h
      rw [if_pos (by simpa using hp)] at h
      cases h
      have heq : (k, p.2) = p := by rw [← hp]
      rw [heq]
      exact List.mem_cons_self p rest
    · simp only [assocGet] at h
      rw [if_neg (by simpa using hp)] at h
      exact List.mem_cons_of_mem p (ih h)

theorem assocGet_eq_none_iff (k : String) (l : List (String × α)) :
    assocGet k l = none ↔ k ∉ l.map Prod.fst := by
  induction l with
  | nil => simp [assocGet]
  | cons p rest ih =>
    by_cases hp : p.1 = k
    · simp only [assocGet]
      rw [if_pos (by simpa using hp)]
      simp [hp]
    · simp only [assocGet]
      rw [if_neg (by simpa using hp)]
      simp only [List.map_cons, List.mem_cons]
      rw [ih]
      constructor
      · intro hk hor
        rcases hor with heq | hmem
        · exact hp heq.symm
        · exact hk hmem
      · intro hk hmem
        exact hk (Or.inr hmem)

theorem assocGet_of_mem_nodup (k : String) (v : α) (l : List (String × α))
    (hmem : (k, v) ∈ l) (hnd : (l.map Prod.fst).Nodup) : assocGet k l = some v := by
  induction l with
  | nil => simp at hmem
  | cons p rest ih =>
    rcases List.mem_cons.mp hmem with heq | hmem2
    · subst heq
      simp [assocGet]
    · have hp : p.1 ≠ k := by
        intro heq
        have : k ∈ rest.map Prod.fst := List.mem_map.mpr ⟨(k, v), hmem2, rfl⟩
        rw [List.map_cons, List.nodup_cons, heq] at hnd
        exact hnd.1 this
      simp only [assocGet]
      rw [if_neg hp]
      exact ih hmem2 (by rw [List.map_cons, List.nodup_cons] at hnd; exact hnd.2)

theorem assocSet_mem_of_mem (k : String) (v : α) (l : List (String × α)) (p : String × α)
    (h : p ∈ assocSet k v l) : p ∈ l ∨ p = (k, v) := by
  induction l with
  | nil => simpa [assocSet] using h
  | cons q rest ih =>
    by_cases hq : q.1 = k
    · simp only [assocSet] at h
      rw [if_pos (by simpa using hq)] at h
      rcases List.mem_cons.mp h with heq | hmem
      · exact Or.inr heq
      · exact Or.inl (List.mem_cons_of_mem q hmem)
    · simp only [assocSet] at h
      rw [if_neg (by simpa using hq)] at h
      rcases List.mem_cons.mp h with heq | hmem
      · exact Or.inl (heq ▸ List.mem_cons_self q rest)
      · rcases ih hmem with hin | hnew
        · exact Or.inl (List.mem_cons_of_mem q hin)
        · exact Or.inr hnew

theorem assocDelete_subset (k : String) (l : List (String × α)) (p : String × α)
    (h : p ∈ assocDelete k l) : p ∈ l := by
  induction l with
  | nil => simp [assocDelete] at h
  | cons q rest ih =>
    by_cases hq : q.1 = k
    · simp only [assocDelete] at h
      rw [if_pos (by simpa using hq)] at h
      exact List.mem_cons_of_mem q h
    · simp only [assocDelete] at h
      rw [if_neg (by simpa using hq)] at h
      rcases List.mem_cons.mp h with heq | hmem
      · exact heq ▸ List.mem_cons_self q rest
      · exact List.mem_cons_of_mem q (ih hmem)

theorem assocGet_delete_self_of_nodup (k : String) (l : List (String × α))
    (hnd : (l.map Prod.fst).Nodup) : assocGet k (assocDelete k l) = none := by
  induction l with
  | nil => simp [assocDelete, assocGet]
  | cons q rest ih =>
    rw [List.map_cons, List.nodup_cons] at hnd
    by_cases hq : q.1 = k
    · simp only [assocDelete]
      rw [if_pos (by simpa using hq)]
      rw [assocGet_eq_none_iff]
      rw [← hq]
      exact hnd.1
    · simp only [assocDelete]
      rw [if_neg (by simpa using hq)]
      simp only [assocGet]
      rw [if_neg (by simpa using hq)]
      exact ih hnd.2

/-! ## Transition lemmas for the manager -/

theorem setSelectedChannel_fst (st : OutputChannelManager) (c : Option (Nat × String)) :
    (st.setSelectedChannel c).1 = { st with selected := c } := rfl

theorem setSelectedChannel_snd (st : OutputChannelManager) (c : Option (Nat × String)) :
    (st.setSelectedChannel c).2 = [.selectedChannelChanged (c.map (fun p => p.2))] := rfl

theorem registerListener_channels (st : OutputChannelManager) (c : OutputChannel) :
    (st.registerListener c).1.channels = st.channels := by
  by_cases hs : st.selected = none <;>
    simp [OutputChannelManager.registerListener, OutputChannelManager.setSelectedChannel, hs]

theorem registerListener_resources (st : OutputChannelManager) (c : OutputChannel) :
    (st.registerListener c).1.resources = st.resources := by
  by_cases hs : st.selected = none <;>
    simp [OutputChannelManager.registerListener, OutputChannelManager.setSelectedChannel, hs]

theorem registerListener_nextId (st : OutputChannelManager) (c : OutputChannel) :
    (st.registerListener c).1.nextId = st.nextId := by
  by_cases hs : st.selected = none <;>
    simp [OutputChannelManager.registerListener, OutputChannelManager.setSelectedChannel, hs]

theorem registerListener_disposedUris (st : OutputChannelManager) (c : OutputChannel) :
    (st.registerListener c).1.disposedUris = st.disposedUris := by
  by_cases hs : st.selected = none <;>
    simp [OutputChannelManager.registerListener, OutputChannelManager.setSelectedChannel, hs]

theorem registerListener_selected (st : OutputChannelManager) (c : OutputChannel) :
    (st.registerListener c).1.selected =
      if st.selected = none then some (c.id, c.name) else st.selected := by
  by_cases hs : st.selected = none <;>
    simp [OutputChannelManager.registerListener, OutputChannelManager.setSelectedChannel, hs]

theorem registerListener_visibilityListeners (st : OutputChannelManager) (c : OutputChannel) :
    (st.registerListener c).1.visibilityListeners = st.visibilityListeners ++ [c.id] := by
  by_cases hs : st.selected = none <;>
    simp [OutputChannelManager.registerListener, OutputChannelManager.setSelectedChannel, hs]

theorem registerListener_toDispose (st : OutputChannelManager) (c : OutputChannel) :
    (st.registerListener c).1.toDisposeOnChannelDeletion =
      assocSet c.name
        (((assocGet c.name st.toDisposeOnChannelDeletion).getD []) ++
          [DisposeAction.disposeChannelObject c.id,
           DisposeAction.disposeVisibilityListener c.id,
           DisposeAction.disposeResource (OutputUri.create c.name).toStr])
        st.toDisposeOnChannelDeletion := by
  by_cases hs : st.selected = none <;>
    simp [OutputChannelManager.registerListener, OutputChannelManager.setSelectedChannel, hs]

theorem getChannel_existing (st : OutputChannelManager) (n : String) (c : OutputChannel)
    (h : assocGet n st.channels = some c) : st.getChannel n = (c, st, []) := by
  unfold OutputChannelManager.getChannel
  rw [h]

theorem getChannel_fresh_shape (st : OutputChannelManager) (n : String)
    (h : assocGet n st.channels = none) :
    ∃ u : URI,
      ((assocGet (OutputUri.create n).toStr st.resources = some { uri := u }) ∨
        (assocGet (OutputUri.create n).toStr st.resources = none ∧ u = OutputUri.create n)) ∧
      st.getChannel n =
        ({ id := st.nextId, uri := u, visible := true },
         { channels := assocSet n { id := st.nextId, uri := u, visible := true } st.channels,
           resources := (match assocGet (OutputUri.create n).toStr st.resources with
             | some _ => st.resources
             | none => assocSet (OutputUri.create n).toStr { uri := OutputUri.create n }
                 st.resources),
           selected := (if st.selected = none
             then some (st.nextId, OutputUri.channelName u) else st.selected),
           visibilityListeners := st.visibilityListeners ++ [st.nextId],
           toDisposeOnChannelDeletion := assocSet (OutputUri.channelName u)
             (((assocGet (OutputUri.channelName u) st.toDisposeOnChannelDeletion).getD []) ++
               [DisposeAction.disposeChannelObject st.nextId,
                DisposeAction.disposeVisibilityListener st.nextId,
                DisposeAction.disposeResource
                  (OutputUri.create (OutputUri.channelName u)).toStr])
             st.toDisposeOnChannelDeletion,
           disposedUris := st.disposedUris,
           nextId := st.nextId + 1 },
         .channelAdded n :: (if st.selected = none
           then [MEvent.selectedChannelChanged (some (OutputUri.channelName u))] else [])) := by
  cases hr : assocGet (OutputUri.create n).toStr st.resources with
  | some r =>
    refine ⟨r.uri, Or.inl rfl, ?_⟩
    by_cases hs : st.selected = none <;>
      simp [OutputChannelManager.getChannel, h, hr, OutputChannelManager.registerListener,
        OutputChannelManager.setSelectedChannel, hs, OutputChannel.name]
  | none =>
    refine ⟨OutputUri.create n, Or.inr ⟨rfl, rfl⟩, ?_⟩
    by_cases hs : st.selected = none <;>
      simp [OutputChannelManager.getChannel, h, hr, OutputChannelManager.registerListener,
        OutputChannelManager.setSelectedChannel, hs, OutputChannel.name]

theorem getChannel_mem (st : OutputChannelManager) (n : String) :
    assocGet n (st.getChannel n).2.1.channels = some (st.getChannel n).1 := by
  cases hc : assocGet n st.channels with
  | some c =>
    rw [getChannel_existing st n c hc]
    exact hc
  | none =>
    obtain ⟨u, _, heq⟩ := getChannel_fresh_shape st n hc
    rw [heq]
    exact assocGet_set_self n _ st.channels

/-- C5: `getChannel` is idempotent by name: every call in a sequence of
`getChannel(n)` calls on a manager succeeds (the embedding is a total
function, mirroring the absence of an error path) and returns the same
channel instance as the first call, and the registry state is unchanged
after the first call. -/
theorem getChannel_idempotent (st : OutputChannelManager) (name : String) (k : Nat) :
    (getChannelCalls st name k).1 = (st.getChannel name).1 ∧
    (getChannelCalls st name k).2 = (st.getChannel name).2.1 := by
  induction k with
  | zero => exact ⟨rfl, rfl⟩
  | succ k ih =>
    have hmem := getChannel_mem st name
    simp only [getChannelCalls]
    rw [ih.2, getChannel_existing _ name _ hmem]
    exact ⟨rfl, rfl⟩

/-- C9: a channel freshly created by `getChannel(n)` is visible: its
`isVisible` getter returns true and the channel is contained in
`getVisibleChannels()` right after creation. -/
theorem getChannel_fresh_visible (st : OutputChannelManager) (n : String)
    (h : assocGet n st.channels = none) :
    ((st.getChannel n).1).isVisible = true ∧
    (st.getChannel n).1 ∈ (st.getChannel n).2.1.getVisibleChannels := by
  obtain ⟨u, _, heq⟩ := getChannel_fresh_shape st n h
  rw [heq]
  refine ⟨rfl, ?_⟩
  have hget : assocGet n (assocSet n { id := st.nextId, uri := u, visible := true }
      st.channels) = some { id := st.nextId, uri := u, visible := true } :=
    assocGet_set_self n _ st.channels
  have hmem := assocGet_mem _ _ _ hget
  simp only [OutputChannelManager.getVisibleChannels, OutputChannelManager.getChannels]
  apply List.mem_filter.mpr
  exact ⟨List.mem_map.mpr ⟨(n, _), hmem, rfl⟩, rfl⟩

/-- C9 witness: creating the first channel in the empty registry. -/
theorem getChannel_fresh_visible_witness :
    ((OutputChannelManager.init.getChannel "a").1).isVisible = true ∧
    (OutputChannelManager.init.getChannel "a").1 ∈
      (OutputChannelManager.init.getChannel "a").2.1.getVisibleChannels :=
  getChannel_fresh_visible OutputChannelManager.init "a" (by decide)

theorem resolve_cases (st : OutputChannelManager) (u : URI) :
    (u.scheme ≠ "output" →
      ∃ msg, st.resolve u = .error (.invalidArgument msg)) ∧
    (u.scheme = "output" → assocGet u.toStr st.resources = none →
      ∃ msg, st.resolve u = .error (.notFound msg)) ∧
    (∀ r : OutputResource, u.scheme = "output" →
      assocGet u.toStr st.resources = some r → st.resolve u = .ok r) := by
  refine ⟨?_, ?_, ?_⟩
  · intro h
    have hb : OutputUri.isOutput u = false := by
      simp [OutputUri.isOutput, OutputUri.SCHEME, h]
    exact ⟨_, by unfold OutputChannelManager.resolve; rw [hb]; rfl⟩
  · intro h hget
    have hb : OutputUri.isOutput u = true := by
      simp [OutputUri.isOutput, OutputUri.SCHEME, h]
    exact ⟨_, by unfold OutputChannelManager.resolve; rw [hb, hget]; rfl⟩
  · intro r h hget
    have hb : OutputUri.isOutput u = true := by
      simp [OutputUri.isOutput, OutputUri.SCHEME, h]
    unfold OutputChannelManager.resolve
    rw [hb, hget]
    rfl

/-- C6: for every URI, `resolve` fails with an invalid-argument error when
the scheme is not `output`; fails with a not-found error when the scheme is
`output` but no resource is registered under the URI; and returns the
registered resource otherwise. -/
theorem resolve_spec (st : OutputChannelManager) (u : URI) :
    (u.scheme ≠ "output" →
      ∃ msg, st.resolve u = .error (.invalidArgument msg)) ∧
    (u.scheme = "output" → assocGet u.toStr st.resources = none →
      ∃ msg, st.resolve u = .error (.notFound msg)) ∧
    (∀ r : OutputResource, u.scheme = "output" →
      assocGet u.toStr st.resources = some r → st.resolve u = .ok r) :=
  resolve_cases st u

/-- C6 witness: the three branches at concrete URIs — a `file:` URI, an
unregistered `output:` URI, and the URI of a freshly created channel. -/
theorem resolve_spec_witness :
    (∃ msg, OutputChannelManager.init.resolve { scheme := "file", path := "a" } =
      .error (.invalidArgument msg)) ∧
    (∃ msg, OutputChannelManager.init.resolve { scheme := "output", path := "a" } =
      .error (.notFound msg)) ∧
    (runManagerOps [.getChannel "a"]).resolve { scheme := "output", path := "a" } =
      .ok { uri := { scheme := "output", path := "a" } } := by
  refine ⟨(resolve_spec OutputChannelManager.init { scheme := "file", path := "a" }).1
      (by decide),
    (resolve_spec OutputChannelManager.init { scheme := "output", path := "a" }).2.1
      rfl (by decide), ?_⟩
  exact (resolve_spec (runManagerOps [.getChannel "a"])
    { scheme := "output", path := "a" }).2.2 _ rfl (by decide)

theorem runDisposeAction_channels (st : OutputChannelManager) (a : DisposeAction) :
    (st.runDisposeAction a).channels = st.channels := by
  cases a with
  | disposeChannelObject i => rfl
  | disposeVisibilityListener i => rfl
  | disposeResource u2 =>
    simp only [OutputChannelManager.runDisposeAction]
    cases assocGet u2 st.resources <;> rfl

theorem runDisposeAction_selected (st : OutputChannelManager) (a : DisposeAction) :
    (st.runDisposeAction a).selected = st.selected := by
  cases a with
  | disposeChannelObject i => rfl
  | disposeVisibilityListener i => rfl
  | disposeResource u2 =>
    simp only [OutputChannelManager.runDisposeAction]
    cases assocGet u2 st.resources <;> rfl

theorem runDisposeAction_nextId (st : OutputChannelManager) (a : DisposeAction) :
    (st.runDisposeAction a).nextId = st.nextId := by
  cases a with
  | disposeChannelObject i => rfl
  | disposeVisibilityListener i => rfl
  | disposeResource u2 =>
    simp only [OutputChannelManager.runDisposeAction]
    cases assocGet u2 st.resources <;> rfl

theorem runDisposeAction_toDispose (st : OutputChannelManager) (a : DisposeAction) :
    (st.runDisposeAction a).toDisposeOnChannelDeletion = st.toDisposeOnChannelDeletion := by
  cases a with
  | disposeChannelObject i => rfl
  | disposeVisibilityListener i => rfl
  | disposeResource u2 =>
    simp only [OutputChannelManager.runDisposeAction]
    cases assocGet u2 st.resources <;> rfl

theorem foldl_dispose_channels (acts : List DisposeAction) :
    ∀ st : OutputChannelManager,
      (acts.foldl OutputChannelManager.runDisposeAction st).channels = st.channels := by
  induction acts with
  | nil => intro st; rfl
  | cons a rest ih =>
    intro st
    rw [List.foldl_cons, ih, runDisposeAction_channels]

theorem foldl_dispose_selected (acts : List DisposeAction) :
    ∀ st : OutputChannelManager,
      (acts.foldl OutputChannelManager.runDisposeAction st).selected = st.selected := by
  induction acts with
  | nil => intro st; rfl
  | cons a rest ih =>
    intro st
    rw [List.foldl_cons, ih, runDisposeAction_selected]

theorem foldl_dispose_nextId (acts : List DisposeAction) :
    ∀ st : OutputChannelManager,
      (acts.foldl OutputChannelManager.runDisposeAction st).nextId = st.nextId := by
  induction acts with
  | nil => intro st; rfl
  | cons a rest ih =>
    intro st
    rw [List.foldl_cons, ih, runDisposeAction_nextId]

theorem foldl_dispose_toDispose (acts : List DisposeAction) :
    ∀ st : OutputChannelManager,
      (acts.foldl OutputChannelManager.runDisposeAction st).toDisposeOnChannelDeletion =
        st.toDisposeOnChannelDeletion := by
  induction acts with
  | nil => intro st; rfl
  | cons a rest ih =>
    intro st
    rw [List.foldl_cons, ih, runDisposeAction_toDispose]

theorem channelDeletedHandler_selected_match (st : OutputChannelManager) (n : String)
    (i : Nat) (hsel : st.selected = some (i, n)) :
    channelDeletedHandler st n =
      st.setSelectedChannel
        ((st.getVisibleChannels.head?).map (fun c2 => (c2.id, c2.name))) := by
  unfold channelDeletedHandler
  rw [hsel]
  simp

/-- C1: for every registry state in which the channel stored under `n` is
the selected channel, after `deleteChannel(n)` the selected channel is the
first remaining visible channel in insertion order, or none if no visible
channel remains. -/
theorem deleteChannel_selected_falls_back (st : OutputChannelManager) (n : String)
    (c : OutputChannel) (hc : assocGet n st.channels = some c) (hname : c.name = n)
    (hsel : st.selected = some (c.id, c.name)) :
    (st.deleteChannel n).1.selected =
      (((assocDelete n st.channels).map Prod.snd).filter
        (fun c2 => c2.isVisible)).head?.map (fun c2 => (c2.id, c2.name)) := by
  unfold OutputChannelManager.deleteChannel
  rw [hc]
  have hmidsel :
      (((assocGet n ({ st with channels := assocDelete n st.channels } :
          OutputChannelManager).toDisposeOnChannelDeletion).getD
        []).reverse.foldl OutputChannelManager.runDisposeAction
          { st with channels := assocDelete n st.channels }).selected
        = some (c.id, n) := by
    rw [foldl_dispose_selected]
    rw [hname] at hsel
    exact hsel
  have hmidch :
      (((assocGet n ({ st with channels := assocDelete n st.channels } :
          OutputChannelManager).toDisposeOnChannelDeletion).getD
        []).reverse.foldl OutputChannelManager.runDisposeAction
          { st with channels := assocDelete n st.channels }).channels
        = assocDelete n st.channels := by
    rw [foldl_dispose_channels]
  simp only []
  rw [channelDeletedHandler_selected_match _ n c.id (by simpa using hmidsel)]
  rw [setSelectedChannel_fst]
  simp only [OutputChannelManager.getVisibleChannels, OutputChannelManager.getChannels]
  rw [hmidch]

/-- C1 witness: with channels a and b (a selected), deleting a moves the
selection to the first remaining visible channel. -/
theorem deleteChannel_selected_falls_back_witness :
    ((runManagerOps [.getChannel "a", .getChannel "b"]).deleteChannel "a").1.selected =
      (((assocDelete "a" (runManagerOps [.getChannel "a", .getChannel "b"]).channels).map
        Prod.snd).filter (fun c2 => c2.isVisible)).head?.map (fun c2 => (c2.id, c2.name)) :=
  deleteChannel_selected_falls_back (runManagerOps [.getChannel "a", .getChannel "b"]) "a"
    { id := 0, uri := { scheme := "output", path := "a" }, visible := true }
    (by decide) (by decide) (by decide)

theorem setVisibility_hide_selected_eq (st : OutputChannelManager) (n : String)
    (c : OutputChannel) (hc : assocGet n st.channels = some c)
    (hsel : st.selected = some (c.id, c.name))
    (hlisten : st.visibilityListeners.contains c.id = true) :
    (st.setVisibility n false).1.selected =
      (((assocSet n { c with visible := false } st.channels).map Prod.snd).filter
        (fun c2 => c2.isVisible)).head?.map (fun c2 => (c2.id, c2.name)) ∧
    ((st.setVisibility n false).2.filter MEvent.isSelectedChanged).length = 1 := by
  unfold OutputChannelManager.setVisibility
  rw [hc]
  simp only []
  rw [if_pos (by simpa using hlisten)]
  unfold visibilityChangeHandler
  rw [if_neg (by simp)]
  have hcond : ∀ st1 : OutputChannelManager, st1.selected = st.selected →
      st1.selected.map (fun p => p.1) = some c.id := by
    intro st1 h1
    rw [h1, hsel]
    rfl
  rw [if_pos (hcond _ rfl), setSelectedChannel_fst, setSelectedChannel_snd]
  exact ⟨rfl, rfl⟩

/-- C7: hiding the selected channel while its visibility listener is live
and at least one other channel is visible changes the selection to the first
other visible channel in insertion order, and fires exactly one
selected-channel-changed notification. -/
theorem setVisibility_hide_selected (st : OutputChannelManager) (n : String)
    (c : OutputChannel) (hc : assocGet n st.channels = some c)
    (hsel : st.selected = some (c.id, c.name))
    (hlisten : st.visibilityListeners.contains c.id = true)
    (hother : (((assocSet n { c with visible := false } st.channels).map Prod.snd).filter
      (fun c2 => c2.isVisible)) ≠ []) :
    (∃ c2 : OutputChannel,
      (((assocSet n { c with visible := false } st.channels).map Prod.snd).filter
        (fun c2 => c2.isVisible)).head? = some c2 ∧
      (st.setVisibility n false).1.selected = some (c2.id, c2.name)) ∧
    ((st.setVisibility n false).2.filter MEvent.isSelectedChanged).length = 1 := by
  have heq := setVisibility_hide_selected_eq st n c hc hsel hlisten
  refine ⟨?_, heq.2⟩
  rcases hl : (((assocSet n { c with visible := false } st.channels).map Prod.snd).filter
      (fun c2 => c2.isVisible)).head? with _ | c2
  · exact absurd (List.head?_eq_none_iff.mp hl) hother
  · exact ⟨c2, hl, by rw [heq.1, hl]; rfl⟩

/-- C7 witness: with channels a and b (a selected and both visible), hiding
a selects b and fires one notification. -/
theorem setVisibility_hide_selected_witness :
    (∃ c2 : OutputChannel,
      (((assocSet "a" (OutputChannel.mk 0 (URI.mk "output" "a") false)
        (runManagerOps [.getChannel "a", .getChannel "b"]).channels).map Prod.snd).filter
        (fun c2 => c2.isVisible)).head? = some c2 ∧
      ((runManagerOps [.getChannel "a", .getChannel "b"]).setVisibility "a"
        false).1.selected = some (c2.id, c2.name)) ∧
    (((runManagerOps [.getChannel "a", .getChannel "b"]).setVisibility "a"
      false).2.filter MEvent.isSelectedChanged).length = 1 :=
  setVisibility_hide_selected (runManagerOps [.getChannel "a", .getChannel "b"]) "a"
    (OutputChannel.mk 0 (URI.mk "output" "a") true)
    (by decide) (by decide) (by decide) (by decide)

theorem channelDeletedHandler_resources (st : OutputChannelManager) (n : String) :
    (channelDeletedHandler st n).1.resources = st.resources := by
  unfold channelDeletedHandler
  cases h : st.selected with
  | none => rfl
  | some p =>
    obtain ⟨i, nm⟩ := p
    by_cases hn : nm = n <;> simp [hn, OutputChannelManager.setSelectedChannel]

theorem channelDeletedHandler_disposedUris (st : OutputChannelManager) (n : String) :
    (channelDeletedHandler st n).1.disposedUris = st.disposedUris := by
  unfold channelDeletedHandler
  cases h : st.selected with
  | none => rfl
  | some p =>
    obtain ⟨i, nm⟩ := p
    by_cases hn : nm = n <;> simp [hn, OutputChannelManager.setSelectedChannel]

theorem channelDeletedHandler_channels (st : OutputChannelManager) (n : String) :
    (channelDeletedHandler st n).1.channels = st.channels := by
  unfold channelDeletedHandler
  cases h : st.selected with
  | none => rfl
  | some p =>
    obtain ⟨i, nm⟩ := p
    by_cases hn : nm = n <;> simp [hn, OutputChannelManager.setSelectedChannel]

theorem deleteChannel_disposes_resource_state (st : OutputChannelManager) (n : String)
    (c : OutputChannel) (r : OutputResource)
    (hc : assocGet n st.channels = some c)
    (hacts : assocGet n st.toDisposeOnChannelDeletion =
      some [DisposeAction.disposeChannelObject c.id,
            DisposeAction.disposeVisibilityListener c.id,
            DisposeAction.disposeResource (OutputUri.create n).toStr])
    (hr : assocGet (OutputUri.create n).toStr st.resources = some r) :
    (st.deleteChannel n).1.resources = assocDelete (OutputUri.create n).toStr st.resources ∧
    (st.deleteChannel n).1.disposedUris =
      st.disposedUris ++ [(OutputUri.create n).toStr] ∧
    (st.deleteChannel n).1.channels = assocDelete n st.channels := by
  unfold OutputChannelManager.deleteChannel
  rw [hc]
  simp only [hacts, Option.getD_some, List.reverse_cons, List.reverse_nil, List.nil_append,
    List.cons_append, List.foldl_cons, List.foldl_nil, OutputChannelManager.runDisposeAction,
    hr]
  rw [channelDeletedHandler_resources, channelDeletedHandler_disposedUris,
    channelDeletedHandler_channels]
  exact ⟨rfl, rfl, rfl⟩

/-- C10: after a successful `deleteChannel(n)` (the channel exists, with its
three registered disposables and a registered resource), the resource is
disposed and removed from the resource registry, so resolving `output:<n>`
fails with the not-found error, until `getChannel(n)` re-creates the channel
and the same URI resolves again. -/
theorem deleteChannel_resource_lifecycle (st : OutputChannelManager) (n : String)
    (c : OutputChannel) (r : OutputResource)
    (hc : assocGet n st.channels = some c)
    (hacts : assocGet n st.toDisposeOnChannelDeletion =
      some [DisposeAction.disposeChannelObject c.id,
            DisposeAction.disposeVisibilityListener c.id,
            DisposeAction.disposeResource (OutputUri.create n).toStr])
    (hr : assocGet (OutputUri.create n).toStr st.resources = some r)
    (hresnd : (st.resources.map Prod.fst).Nodup)
    (hchnd : (st.channels.map Prod.fst).Nodup) :
    ((OutputUri.create n).toStr ∈ (st.deleteChannel n).1.disposedUris) ∧
    assocGet (OutputUri.create n).toStr (st.deleteChannel n).1.resources = none ∧
    (∃ msg, (st.deleteChannel n).1.resolve (OutputUri.create n) =
      .error (.notFound msg)) ∧
    (∃ r2, (((st.deleteChannel n).1.getChannel n).2.1).resolve (OutputUri.create n) =
      .ok r2) := by
  obtain ⟨hres, hdisp, hch⟩ := deleteChannel_disposes_resource_state st n c r hc hacts hr
  have hresnone : assocGet (OutputUri.create n).toStr (st.deleteChannel n).1.resources =
      none := by
    rw [hres]
    exact assocGet_delete_self_of_nodup _ _ hresnd
  have hscheme : (OutputUri.create n).scheme = "output" := rfl
  refine ⟨?_, hresnone, ?_, ?_⟩
  · rw [hdisp]
    simp
  · exact (resolve_cases _ _).2.1 hscheme hresnone
  · have hchnone : assocGet n (st.deleteChannel n).1.channels = none := by
      rw [hch]
      exact assocGet_delete_self_of_nodup _ _ hchnd
    obtain ⟨u, hu, heq⟩ := getChannel_fresh_shape (st.deleteChannel n).1 n hchnone
    have hget2 : assocGet (OutputUri.create n).toStr
        ((((st.deleteChannel n).1.getChannel n).2.1).resources) =
        some { uri := OutputUri.create n } := by
      simp only [heq]
      rw [hresnone]
      exact assocGet_set_self _ _ _
    exact ⟨_, (resolve_cases _ _).2.2 _ hscheme hget2⟩

/-- C10 witness: create a and b, delete a, then re-create it. -/
theorem deleteChannel_resource_lifecycle_witness :
    (("output:a" : String) ∈
      ((runManagerOps [.getChannel "a", .getChannel "b"]).deleteChannel "a").1.disposedUris) ∧
    assocGet "output:a"
      ((runManagerOps [.getChannel "a", .getChannel "b"]).deleteChannel "a").1.resources =
      none ∧
    (∃ msg, ((runManagerOps [.getChannel "a", .getChannel "b"]).deleteChannel
      "a").1.resolve (OutputUri.create "a") = .error (.notFound msg)) ∧
    (∃ r2, ((((runManagerOps [.getChannel "a", .getChannel "b"]).deleteChannel
      "a").1.getChannel "a").2.1).resolve (OutputUri.create "a") = .ok r2) :=
  deleteChannel_resource_lifecycle (runManagerOps [.getChannel "a", .getChannel "b"]) "a"
    (OutputChannel.mk 0 (URI.mk "output" "a") true)
    (OutputResource.mk (URI.mk "output" "a"))
    (by decide) (by decide) (by decide) (by decide) (by decide)

theorem assocSet_keys_present (k : String) (v w : α) (l : List (String × α))
    (h : assocGet k l = some w) :
    (assocSet k v l).map Prod.fst = l.map Prod.fst := by
  induction l with
  | nil => simp [assocGet] at h
  | cons p rest ih =>
    by_cases hp : p.1 = k
    · simp only [assocSet]
      rw [if_pos (by simpa using hp)]
      simp [hp]
    · simp only [assocGet] at h
      rw [if_neg (by simpa using hp)] at h
      simp only [assocSet]
      rw [if_neg (by simpa using hp)]
      simp [ih h]

theorem assocSet_keys_absent (k : String) (v : α) (l : List (String × α))
    (h : assocGet k l = none) :
    (assocSet k v l).map Prod.fst = l.map Prod.fst ++ [k] := by
  induction l with
  | nil => simp [assocSet]
  | cons p rest ih =>
    by_cases hp : p.1 = k
    · simp only [assocGet] at h
      rw [if_pos (by simpa using hp)] at h
      cases h
    · simp only [assocGet] at h
      rw [if_neg (by simpa using hp)] at h
      simp only [assocSet]
      rw [if_neg (by simpa using hp)]
      simp [ih h]

theorem assocDelete_sublist (k : String) (l : List (String × α)) :
    (assocDelete k l).Sublist l := by
  induction l with
  | nil => simp [assocDelete]
  | cons p rest ih =>
    by_cases hp : p.1 = k
    · simp only [assocDelete]
      rw [if_pos (by simpa using hp)]
      exact List.sublist_cons_self p rest
    · simp only [assocDelete]
      rw [if_neg (by simpa using hp)]
      exact List.Sublist.cons₂ p ih

theorem assocDelete_keys_nodup (k : String) (l : List (String × α))
    (hnd : (l.map Prod.fst).Nodup) : ((assocDelete k l).map Prod.fst).Nodup :=
  List.Nodup.sublist (List.Sublist.map Prod.fst (assocDelete_sublist k l)) hnd

theorem head_visible_spec (chs : List (String × OutputChannel))
    (hnd : (chs.map Prod.fst).Nodup)
    (hname : ∀ nm c2, assocGet nm chs = some c2 → c2.name = nm) :
    ∀ c2 : OutputChannel,
      ((chs.map Prod.snd).filter (fun x => x.isVisible)).head? = some c2 →
      assocGet c2.name chs = some c2 ∧ c2.visible = true := by
  intro c2 hhead
  have hmemf : c2 ∈ (chs.map Prod.snd).filter (fun x => x.isVisible) := by
    cases hl : (chs.map Prod.snd).filter (fun x => x.isVisible) with
    | nil => rw [hl] at hhead; cases hhead
    | cons a t =>
      rw [hl] at hhead
      simp only [List.head?_cons, Option.some.injEq] at hhead
      rw [← hhead]
      exact List.mem_cons_self a t
  have hvis : c2.isVisible = true := (List.mem_filter.mp hmemf).2
  have hmem2 : c2 ∈ chs.map Prod.snd := (List.mem_filter.mp hmemf).1
  obtain ⟨p, hp, hps⟩ := List.mem_map.mp hmem2
  have hp2 : (p.1, c2) ∈ chs := by
    rw [← hps]
    exact hp
  have hget : assocGet p.1 chs = some c2 := assocGet_of_mem_nodup p.1 c2 chs hp2 hnd
  have hname2 : c2.name = p.1 := hname p.1 c2 hget
  rw [hname2]
  exact ⟨hget, hvis⟩

theorem deleteChannel_shape (st : OutputChannelManager) (n : String) (c : OutputChannel)
    (hc : assocGet n st.channels = some c)
    (hacts : assocGet n st.toDisposeOnChannelDeletion =
      some [DisposeAction.disposeChannelObject c.id,
            DisposeAction.disposeVisibilityListener c.id,
            DisposeAction.disposeResource (OutputUri.create n).toStr]) :
    st.deleteChannel n =
      ((channelDeletedHandler
        { channels := assocDelete n st.channels,
          resources := (match assocGet (OutputUri.create n).toStr st.resources with
            | some _ => assocDelete (OutputUri.create n).toStr st.resources
            | none => st.resources),
          selected := st.selected,
          visibilityListeners := st.visibilityListeners.filter (fun j => j ≠ c.id),
          toDisposeOnChannelDeletion := assocSet n [] st.toDisposeOnChannelDeletion,
          disposedUris := (match assocGet (OutputUri.create n).toStr st.resources with
            | some _ => st.disposedUris ++ [(OutputUri.create n).toStr]
            | none => st.disposedUris),
          nextId := st.nextId } n).1,
       .channelDeleted n ::
        (channelDeletedHandler
          { channels := assocDelete n st.channels,
            resources := (match assocGet (OutputUri.create n).toStr st.resources with
              | some _ => assocDelete (OutputUri.create n).toStr st.resources
              | none => st.resources),
            selected := st.selected,
            visibilityListeners := st.visibilityListeners.filter (fun j => j ≠ c.id),
            toDisposeOnChannelDeletion := assocSet n [] st.toDisposeOnChannelDeletion,
            disposedUris := (match assocGet (OutputUri.create n).toStr st.resources with
              | some _ => st.disposedUris ++ [(OutputUri.create n).toStr]
              | none => st.disposedUris),
            nextId := st.nextId } n).2) := by
  unfold OutputChannelManager.deleteChannel
  rw [hc]
  simp only [hacts, Option.getD_some, List.reverse_cons, List.reverse_nil, List.nil_append,
    List.cons_append, List.foldl_cons, List.foldl_nil, OutputChannelManager.runDisposeAction]
  cases hres : assocGet (OutputUri.create n).toStr st.resources with
  | some r2 => simp [hres]
  | none => simp [hres]

theorem contains_append_left_nat (l1 l2 : List Nat) (a : Nat)
    (h : l1.contains a = true) : (l1 ++ l2).contains a = true := by
  have hmem : a ∈ l1 := by simpa using h
  simpa using List.mem_append_left l2 hmem

theorem string_append_left_cancel (a b c2 : String) (h : a ++ b = a ++ c2) : b = c2 := by
  have h2 := congrArg String.data h
  simp only [String.data_append] at h2
  exact String.ext (List.append_cancel_left h2)

theorem managerInv_getChannel (st : OutputChannelManager) (n : String)
    (hinv : ManagerInv st) : ManagerInv (st.getChannel n).2.1 := by
  cases hc : assocGet n st.channels with
  | some c =>
    rw [getChannel_existing st n c hc]
    exact hinv
  | none =>
    obtain ⟨u, hu, heq⟩ := getChannel_fresh_shape st n hc
    have hupath : OutputUri.channelName u = n := by
      rcases hu with hsome | ⟨_, huu⟩
      · have hmem := assocGet_mem _ _ _ hsome
        have hok := hinv.resourcesOk _ hmem
        have h1 : u.scheme = OutputUri.SCHEME := hok.1
        have h2 : u.scheme ++ ":" ++ u.path = OutputUri.SCHEME ++ ":" ++ n := hok.2
        rw [h1] at h2
        exact string_append_left_cancel (OutputUri.SCHEME ++ ":") u.path n h2
      · rw [huu]
        rfl
    have hold : (assocGet n st.toDisposeOnChannelDeletion).getD [] = [] := by
      rcases hinv.actsEmpty n hc with h | h <;> rw [h] <;> rfl
    have hnotin : n ∉ st.channels.map Prod.fst := (assocGet_eq_none_iff n _).mp hc
    rw [heq, hupath, hold]
    simp only [List.nil_append]
    constructor
    · -- selectedOk
      intro i nm hs'
      by_cases hs : st.selected = none
      · rw [if_pos hs] at hs'
        cases hs'
        refine ⟨{ id := st.nextId, uri := u, visible := true }, ?_, rfl, rfl⟩
        exact assocGet_set_self n _ st.channels
      · rw [if_neg hs] at hs'
        obtain ⟨csel, hcsel, hid, hvis⟩ := hinv.selectedOk i nm hs'
        have hne : n ≠ nm := by
          intro hcontra
          rw [← hcontra] at hcsel
          rw [hc] at hcsel
          cases hcsel
        exact ⟨csel, by rw [assocGet_set_ne n nm _ _ hne]; exact hcsel, hid, hvis⟩
    · -- listenersOk
      intro nm c0 hg
      by_cases hnm : nm = n
      · subst hnm
        rw [assocGet_set_self] at hg
        cases hg
        simp
      · rw [assocGet_set_ne n nm _ _ (fun h => hnm h.symm)] at hg
        have := hinv.listenersOk nm c0 hg
        exact contains_append_left_nat st.visibilityListeners [st.nextId] c0.id this
    · -- actsOk
      intro nm c0 hg
      by_cases hnm : nm = n
      · subst hnm
        rw [assocGet_set_self] at hg
        cases hg
        rw [assocGet_set_self]
      · rw [assocGet_set_ne n nm _ _ (fun h => hnm h.symm)] at hg
        rw [assocGet_set_ne n nm _ _ (fun h => hnm h.symm)]
        exact hinv.actsOk nm c0 hg
    · -- actsEmpty
      intro nm hg
      by_cases hnm : nm = n
      · subst hnm
        rw [assocGet_set_self] at hg
        cases hg
      · rw [assocGet_set_ne n nm _ _ (fun h => hnm h.symm)] at hg
        rw [assocGet_set_ne n nm _ _ (fun h => hnm h.symm)]
        exact hinv.actsEmpty nm hg
    · -- idsBound
      intro nm c0 hg
      by_cases hnm : nm = n
      · subst hnm
        rw [assocGet_set_self] at hg
        cases hg
        show st.nextId < st.nextId + 1
        omega
      · rw [assocGet_set_ne n nm _ _ (fun h => hnm h.symm)] at hg
        have := hinv.idsBound nm c0 hg
        show c0.id < st.nextId + 1
        omega
    · -- idsInj
      intro nm1 nm2 c1 c2 h1 h2 hid
      by_cases hn1 : nm1 = n <;> by_cases hn2 : nm2 = n
      · rw [hn1, hn2]
      · rw [hn1] at h1
        rw [assocGet_set_self] at h1
        cases h1
        rw [assocGet_set_ne n nm2 _ _ (fun h => hn2 h.symm)] at h2
        have hb := hinv.idsBound nm2 c2 h2
        have hid2 : st.nextId = c2.id := hid
        exfalso
        omega
      · rw [hn2] at h2
        rw [assocGet_set_self] at h2
        cases h2
        rw [assocGet_set_ne n nm1 _ _ (fun h => hn1 h.symm)] at h1
        have hb := hinv.idsBound nm1 c1 h1
        have hid2 : c1.id = st.nextId := hid
        exfalso
        omega
      · rw [assocGet_set_ne n nm1 _ _ (fun h => hn1 h.symm)] at h1
        rw [assocGet_set_ne n nm2 _ _ (fun h => hn2 h.symm)] at h2
        exact hinv.idsInj nm1 nm2 c1 c2 h1 h2 hid
    · -- keysMatch
      intro nm c0 hg
      by_cases hnm : nm = n
      · rw [hnm] at hg ⊢
        rw [assocGet_set_self] at hg
        cases hg
        show OutputUri.channelName u = n
        exact hupath
      · rw [assocGet_set_ne n nm _ _ (fun h => hnm h.symm)] at hg
        exact hinv.keysMatch nm c0 hg
    · -- keysNodup
      rw [assocSet_keys_absent n _ _ hc]
      rw [List.nodup_append]
      exact ⟨hinv.keysNodup, List.nodup_singleton n, by simpa using hnotin⟩
    · -- resourcesOk
      intro p hp
      rcases hres : assocGet (OutputUri.create n).toStr st.resources with _ | r2
      · rw [hres] at hp
        rcases assocSet_mem_of_mem _ _ _ _ hp with hold2 | hnew
        · exact hinv.resourcesOk p hold2
        · rw [hnew]
          exact ⟨rfl, rfl⟩
      · rw [hres] at hp
        exact hinv.resourcesOk p hp

theorem contains_filter_ne (l : List Nat) (a b : Nat) (hne : a ≠ b)
    (h : l.contains a = true) : (l.filter (fun j => j ≠ b)).contains a = true := by
  have hmem : a ∈ l := by simpa using h
  have : a ∈ l.filter (fun j => j ≠ b) := by
    apply List.mem_filter.mpr
    exact ⟨hmem, by simpa using hne⟩
  simpa using this

theorem assocGet_delete_some (k nm : String) (l : List (String × α)) (v : α)
    (hnd : (l.map Prod.fst).Nodup)
    (h : assocGet nm (assocDelete k l) = some v) :
    nm ≠ k ∧ assocGet nm l = some v := by
  by_cases hk : nm = k
  · rw [hk] at h
    rw [assocGet_delete_self_of_nodup k l hnd] at h
    cases h
  · refine ⟨hk, ?_⟩
    rw [← assocGet_delete_ne k nm l (fun hh => hk hh.symm)]
    exact h

theorem managerInv_channelDeletedHandler (st3 : OutputChannelManager) (n : String)
    (hbase : ManagerInv { st3 with selected := none })
    (hsel3 : ∀ i nm, st3.selected = some (i, nm) → nm ≠ n →
      ∃ c0, assocGet nm st3.channels = some c0 ∧ c0.id = i ∧ c0.visible = true) :
    ManagerInv (channelDeletedHandler st3 n).1 := by
  unfold channelDeletedHandler
  cases hs : st3.selected with
  | none =>
    refine ⟨?_, hbase.listenersOk, hbase.actsOk, hbase.actsEmpty, hbase.idsBound,
      hbase.idsInj, hbase.keysMatch, hbase.keysNodup, hbase.resourcesOk⟩
    intro i nm hsome
    have hsome2 : st3.selected = some (i, nm) := hsome
    rw [hs] at hsome2
    cases hsome2
  | some p =>
    obtain ⟨j, selName⟩ := p
    by_cases hn : selName = n
    · subst hn
      change ManagerInv ((if selName = selName then
        st3.setSelectedChannel
          ((st3.getVisibleChannels.head?).map (fun c2 => (c2.id, c2.name)))
        else (st3, ([] : List MEvent))).1)
      rw [if_pos rfl, setSelectedChannel_fst]
      refine ⟨?_, hbase.listenersOk, hbase.actsOk, hbase.actsEmpty, hbase.idsBound,
        hbase.idsInj, hbase.keysMatch, hbase.keysNodup, hbase.resourcesOk⟩
      intro i nm hsome
      have hsome2 : (st3.getVisibleChannels.head?).map (fun c2 => (c2.id, c2.name)) =
          some (i, nm) := hsome
      cases hhead : st3.getVisibleChannels.head? with
      | none =>
        rw [hhead] at hsome2
        cases hsome2
      | some c2 =>
        rw [hhead] at hsome2
        simp only [Option.map_some', Option.some.injEq, Prod.mk.injEq] at hsome2
        obtain ⟨hget, hvis⟩ := head_visible_spec st3.channels hbase.keysNodup
          hbase.keysMatch c2 hhead
        refine ⟨c2, ?_, ?_, hvis⟩
        · rw [← hsome2.2]
          exact hget
        · exact hsome2.1
    · change ManagerInv ((if selName = n then
        st3.setSelectedChannel
          ((st3.getVisibleChannels.head?).map (fun c2 => (c2.id, c2.name)))
        else (st3, ([] : List MEvent))).1)
      rw [if_neg hn]
      refine ⟨?_, hbase.listenersOk, hbase.actsOk, hbase.actsEmpty, hbase.idsBound,
        hbase.idsInj, hbase.keysMatch, hbase.keysNodup, hbase.resourcesOk⟩
      intro i nm hsome
      have hsome2 : st3.selected = some (i, nm) := hsome
      rw [hs] at hsome2
      cases hsome2
      exact hsel3 j selName hs hn

theorem managerInv_deleteChannel (st : OutputChannelManager) (n : String)
    (hinv : ManagerInv st) : ManagerInv (st.deleteChannel n).1 := by
  cases hc : assocGet n st.channels with
  | none =>
    unfold OutputChannelManager.deleteChannel
    rw [hc]
    exact hinv
  | some c =>
    have hacts := hinv.actsOk n c hc
    rw [deleteChannel_shape st n c hc hacts]
    apply managerInv_channelDeletedHandler
    · constructor
      · intro i nm h
        have h2 : (none : Option (Nat × String)) = some (i, nm) := h
        cases h2
      · intro nm c0 hg
        have hg2 : assocGet nm (assocDelete n st.channels) = some c0 := hg
        obtain ⟨hne, hg3⟩ := assocGet_delete_some n nm _ _ hinv.keysNodup hg2
        have hcontains := hinv.listenersOk nm c0 hg3
        have hidne : c0.id ≠ c.id := by
          intro hcontra
          exact hne (hinv.idsInj nm n c0 c hg3 hc hcontra)
        show (st.visibilityListeners.filter (fun j => j ≠ c.id)).contains c0.id = true
        exact contains_filter_ne _ _ _ hidne hcontains
      · intro nm c0 hg
        have hg2 : assocGet nm (assocDelete n st.channels) = some c0 := hg
        obtain ⟨hne, hg3⟩ := assocGet_delete_some n nm _ _ hinv.keysNodup hg2
        show assocGet nm (assocSet n [] st.toDisposeOnChannelDeletion) = _
        rw [assocGet_set_ne n nm _ _ (fun h => hne h.symm)]
        exact hinv.actsOk nm c0 hg3
      · intro nm hg
        have hg2 : assocGet nm (assocDelete n st.channels) = none := hg
        by_cases hnm : nm = n
        · right
          show assocGet nm (assocSet n [] st.toDisposeOnChannelDeletion) = some []
          rw [hnm]
          exact assocGet_set_self n [] _
        · have hg3 : assocGet nm st.channels = none := by
            rw [← assocGet_delete_ne n nm st.channels (fun h => hnm h.symm)]
            exact hg2
          rcases hinv.actsEmpty nm hg3 with h | h
          · left
            show assocGet nm (assocSet n [] st.toDisposeOnChannelDeletion) = none
            rw [assocGet_set_ne n nm _ _ (fun hh => hnm hh.symm)]
            exact h
          · right
            show assocGet nm (assocSet n [] st.toDisposeOnChannelDeletion) = some []
            rw [assocGet_set_ne n nm _ _ (fun hh => hnm hh.symm)]
            exact h
      · intro nm c0 hg
        have hg2 : assocGet nm (assocDelete n st.channels) = some c0 := hg
        obtain ⟨hne, hg3⟩ := assocGet_delete_some n nm _ _ hinv.keysNodup hg2
        show c0.id < st.nextId
        exact hinv.idsBound nm c0 hg3
      · intro nm1 nm2 c1 c2 h1 h2 hid
        have h12 : assocGet nm1 (assocDelete n st.channels) = some c1 := h1
        have h22 : assocGet nm2 (assocDelete n st.channels) = some c2 := h2
        obtain ⟨_, h13⟩ := assocGet_delete_some n nm1 _ _ hinv.keysNodup h12
        obtain ⟨_, h23⟩ := assocGet_delete_some n nm2 _ _ hinv.keysNodup h22
        exact hinv.idsInj nm1 nm2 c1 c2 h13 h23 hid
      · intro nm c0 hg
        have hg2 : assocGet nm (assocDelete n st.channels) = some c0 := hg
        obtain ⟨_, hg3⟩ := assocGet_delete_some n nm _ _ hinv.keysNodup hg2
        exact hinv.keysMatch nm c0 hg3
      · show ((assocDelete n st.channels).map Prod.fst).Nodup
        exact assocDelete_keys_nodup n st.channels hinv.keysNodup
      · intro p hp
        have hp2 : p ∈ (match assocGet (OutputUri.create n).toStr st.resources with
          | some _ => assocDelete (OutputUri.create n).toStr st.resources
          | none => st.resources) := hp
        cases hres : assocGet (OutputUri.create n).toStr st.resources with
        | some r2 =>
          rw [hres] at hp2
          exact hinv.resourcesOk p (assocDelete_subset _ _ _ hp2)
        | none =>
          rw [hres] at hp2
          exact hinv.resourcesOk p hp2
    · intro i nm hsome hne
      have hsome2 : st.selected = some (i, nm) := hsome
      obtain ⟨csel, hcsel, hid, hvis⟩ := hinv.selectedOk i nm hsome2
      refine ⟨csel, ?_, hid, hvis⟩
      show assocGet nm (assocDelete n st.channels) = some csel
      rw [assocGet_delete_ne n nm st.channels (fun h => hne h.symm)]
      exact hcsel

theorem managerInv_of_parts (stA : OutputChannelManager)
    (hbase : ManagerInv { stA with selected := none })
    (hsel : ∀ i nm, stA.selected = some (i, nm) →
      ∃ c0, assocGet nm stA.channels = some c0 ∧ c0.id = i ∧ c0.visible = true) :
    ManagerInv stA :=
  ⟨hsel, hbase.listenersOk, hbase.actsOk, hbase.actsEmpty, hbase.idsBound,
    hbase.idsInj, hbase.keysMatch, hbase.keysNodup, hbase.resourcesOk⟩

theorem managerInv_visibilityChangeHandler (st1 : OutputChannelManager)
    (c2 : OutputChannel) (v : Bool)
    (hbase : ManagerInv { st1 with selected := none })
    (htrue : v = true → assocGet c2.name st1.channels = some c2 ∧ c2.visible = true)
    (hkeep : ∀ i nm, ¬(st1.selected.map (fun p => p.1) = some c2.id) →
      st1.selected = some (i, nm) →
      ∃ c0, assocGet nm st1.channels = some c0 ∧ c0.id = i ∧ c0.visible = true) :
    ManagerInv (visibilityChangeHandler st1 c2 v).1 := by
  unfold visibilityChangeHandler
  cases v with
  | true =>
    rw [if_pos rfl, setSelectedChannel_fst]
    apply managerInv_of_parts
    · exact hbase
    · intro i nm heq
      have heq2 : some (c2.id, c2.name) = some (i, nm) := heq
      have hpair := Option.some.inj heq2
      have hi : c2.id = i := congrArg Prod.fst hpair
      have hnm : c2.name = nm := congrArg Prod.snd hpair
      obtain ⟨hget, hvis⟩ := htrue rfl
      refine ⟨c2, ?_, hi, hvis⟩
      rw [← hnm]
      exact hget
  | false =>
    rw [if_neg (by simp)]
    by_cases hcond : st1.selected.map (fun p => p.1) = some c2.id
    · rw [if_pos hcond, setSelectedChannel_fst]
      apply managerInv_of_parts
      · exact hbase
      · intro i nm heq
        have heq2 : (st1.getVisibleChannels.head?).map (fun c3 => (c3.id, c3.name)) =
          some (i, nm) := heq
        cases hhead : st1.getVisibleChannels.head? with
        | none =>
          rw [hhead] at heq2
          cases heq2
        | some c3 =>
          rw [hhead] at heq2
          simp only [Option.map_some', Option.some.injEq, Prod.mk.injEq] at heq2
          obtain ⟨hget, hvis⟩ := head_visible_spec st1.channels hbase.keysNodup
            hbase.keysMatch c3 hhead
          refine ⟨c3, ?_, heq2.1, hvis⟩
          rw [← heq2.2]
          exact hget
    · rw [if_neg hcond]
      apply managerInv_of_parts
      · exact hbase
      · intro i nm heq
        exact hkeep i nm hcond heq

theorem managerInv_setVisibility (st : OutputChannelManager) (n : String) (v : Bool)
    (hinv : ManagerInv st) : ManagerInv (st.setVisibility n v).1 := by
  cases hc : assocGet n st.channels with
  | none =>
    unfold OutputChannelManager.setVisibility
    rw [hc]
    exact hinv
  | some c =>
    have hname : c.name = n := hinv.keysMatch n c hc
    have hlisten := hinv.listenersOk n c hc
    have hbase : ManagerInv
        { st with
          channels := assocSet n ({ c with visible := v }) st.channels,
          selected := none } := by
      constructor
      · intro i nm h
        have h2 : (none : Option (Nat × String)) = some (i, nm) := h
        cases h2
      · intro nm c0 hg
        have hg2 : assocGet nm (assocSet n ({ c with visible := v }) st.channels) =
          some c0 := hg
        by_cases hnm : nm = n
        · rw [hnm] at hg2
          rw [assocGet_set_self] at hg2
          cases hg2
          exact hlisten
        · rw [assocGet_set_ne n nm _ _ (fun h => hnm h.symm)] at hg2
          exact hinv.listenersOk nm c0 hg2
      · intro nm c0 hg
        have hg2 : assocGet nm (assocSet n ({ c with visible := v }) st.channels) =
          some c0 := hg
        by_cases hnm : nm = n
        · rw [hnm] at hg2 ⊢
          rw [assocGet_set_self] at hg2
          cases hg2
          exact hinv.actsOk n c hc
        · rw [assocGet_set_ne n nm _ _ (fun h => hnm h.symm)] at hg2
          exact hinv.actsOk nm c0 hg2
      · intro nm hg
        have hg2 : assocGet nm (assocSet n ({ c with visible := v }) st.channels) =
          none := hg
        by_cases hnm : nm = n
        · rw [hnm, assocGet_set_self] at hg2
          cases hg2
        · rw [assocGet_set_ne n nm _ _ (fun h => hnm h.symm)] at hg2
          exact hinv.actsEmpty nm hg2
      · intro nm c0 hg
        have hg2 : assocGet nm (assocSet n ({ c with visible := v }) st.channels) =
          some c0 := hg
        by_cases hnm : nm = n
        · rw [hnm] at hg2
          rw [assocGet_set_self] at hg2
          cases hg2
          show c.id < st.nextId
          exact hinv.idsBound n c hc
        · rw [assocGet_set_ne n nm _ _ (fun h => hnm h.symm)] at hg2
          exact hinv.idsBound nm c0 hg2
      · intro nm1 nm2 c1 c2 h1 h2 hid
        have h12 : assocGet nm1 (assocSet n ({ c with visible := v }) st.channels) =
          some c1 := h1
        have h22 : assocGet nm2 (assocSet n ({ c with visible := v }) st.channels) =
          some c2 := h2
        by_cases hn1 : nm1 = n <;> by_cases hn2 : nm2 = n
        · rw [hn1, hn2]
        · rw [hn1] at h12
          rw [assocGet_set_self] at h12
          cases h12
          rw [assocGet_set_ne n nm2 _ _ (fun h => hn2 h.symm)] at h22
          have hid2 : c.id = c2.id := hid
          rw [hn1]
          exact (hinv.idsInj n nm2 c c2 hc h22 hid2)
        · rw [hn2] at h22
          rw [assocGet_set_self] at h22
          cases h22
          rw [assocGet_set_ne n nm1 _ _ (fun h => hn1 h.symm)] at h12
          have hid2 : c1.id = c.id := hid
          rw [hn2]
          exact hinv.idsInj nm1 n c1 c h12 hc hid2
        · rw [assocGet_set_ne n nm1 _ _ (fun h => hn1 h.symm)] at h12
          rw [assocGet_set_ne n nm2 _ _ (fun h => hn2 h.symm)] at h22
          exact hinv.idsInj nm1 nm2 c1 c2 h12 h22 hid
      · intro nm c0 hg
        have hg2 : assocGet nm (assocSet n ({ c with visible := v }) st.channels) =
          some c0 := hg
        by_cases hnm : nm = n
        · rw [hnm] at hg2 ⊢
          rw [assocGet_set_self] at hg2
          cases hg2
          exact hname
        · rw [assocGet_set_ne n nm _ _ (fun h => hnm h.symm)] at hg2
          exact hinv.keysMatch nm c0 hg2
      · show ((assocSet n ({ c with visible := v }) st.channels).map Prod.fst).Nodup
        rw [assocSet_keys_present n _ c st.channels hc]
        exact hinv.keysNodup
      · exact hinv.resourcesOk
    unfold OutputChannelManager.setVisibility
    rw [hc]
    simp only []
    rw [if_pos (by exact hlisten)]
    apply managerInv_visibilityChangeHandler
    · exact hbase
    · intro hv
      constructor
      · show assocGet ({ c with visible := v } : OutputChannel).name
          (assocSet n ({ c with visible := v }) st.channels) = some ({ c with visible := v })
        have hcn : ({ c with visible := v } : OutputChannel).name = n := hname
        rw [hcn]
        exact assocGet_set_self n _ st.channels
      · show v = true
        exact hv
    · intro i nm hcond heq
      have heq2 : st.selected = some (i, nm) := heq
      obtain ⟨csel, hcsel, hid, hvis⟩ := hinv.selectedOk i nm heq2
      by_cases hnm : nm = n
      · exfalso
        apply hcond
        show st.selected.map (fun p => p.1) = some c.id
        rw [heq2]
        rw [hnm] at hcsel
        rw [hc] at hcsel
        have hceq : c = csel := Option.some.inj hcsel
        simp only [Option.map_some']
        rw [← hid, ← hceq]
      · refine ⟨csel, ?_, hid, hvis⟩
        show assocGet nm (assocSet n ({ c with visible := v }) st.channels) = some csel
        rw [assocGet_set_ne n nm _ _ (fun h => hnm h.symm)]
        exact hcsel

theorem managerInv_init : ManagerInv OutputChannelManager.init := by
  constructor
  · intro i nm h
    cases h
  · intro nm c0 hg
    cases hg
  · intro nm c0 hg
    cases hg
  · intro nm _
    left
    rfl
  · intro nm c0 hg
    cases hg
  · intro nm1 nm2 c1 c2 h1 h2 _
    cases h1
  · intro nm c0 hg
    cases hg
  · show (([] : List (String × OutputChannel)).map Prod.fst).Nodup
    simp
  · intro p hp
    cases hp

theorem managerInv_runManagerOps (ops : List ManagerOp) :
    ManagerInv (runManagerOps ops) := by
  suffices h : ∀ st, ManagerInv st → ManagerInv (ops.foldl applyManagerOp st) from
    h _ managerInv_init
  induction ops with
  | nil => intro st h; exact h
  | cons op rest ih =>
    intro st h
    rw [List.foldl_cons]
    apply ih
    cases op with
    | getChannel n2 => exact managerInv_getChannel st n2 h
    | deleteChannel n2 => exact managerInv_deleteChannel st n2 h
    | setVisibility n2 v2 => exact managerInv_setVisibility st n2 v2 h

/-- C3: for every sequence of getChannel, deleteChannel and setVisibility
operations run from the empty registry, whenever a selected channel is
present, that channel exists in the registry channel map (under its name,
with the same identity) and its visibility flag is true. -/
theorem selected_channel_exists_and_visible (ops : List ManagerOp) (i : Nat) (nm : String)
    (hsel : (runManagerOps ops).selected = some (i, nm)) :
    ∃ c, assocGet nm (runManagerOps ops).channels = some c ∧ c.id = i ∧
      c.visible = true :=
  (managerInv_runManagerOps ops).selectedOk i nm hsel

/-- C3 witness: after creating a, hiding it, creating b and deleting b, the
selected channel (none or some) satisfies the invariant; here the concrete
run selects channel a after re-showing it. -/
theorem selected_channel_exists_and_visible_witness :
    ∃ c, assocGet "a" (runManagerOps [.getChannel "a", .getChannel "b",
      .setVisibility "b" false, .setVisibility "a" true]).channels = some c ∧
      c.id = 0 ∧ c.visible = true :=
  selected_channel_exists_and_visible
    [.getChannel "a", .getChannel "b", .setVisibility "b" false, .setVisibility "a" true]
    0 "a" (by decide)

/-- C4 (spec-modelled): at shutdown the manager persists exactly the set of
names of channels whose lock flag is set at that moment — a name is
persisted iff some live channel carries it with the flag set — and this list
is computed from the live flags alone, so it is independent of the set
restored at startup (a concrete session below persists a set different from
the one it restored); at startup the persisted locked-channel set is loaded
before any per-channel listener registration (the load is the first startup
step and every later step is a listener registration). -/
theorem lock_persistence_spec :
    (∀ (cs : List LockChannel) (n2 : String),
      n2 ∈ lockShutdownPersist cs ↔
        ∃ c0, c0 ∈ cs ∧ c0.name = n2 ∧ c0.locked = true) ∧
    (∀ (stored names : List String),
      (lockStartup stored names).1.head? = some (.loadLockedSet stored) ∧
      ∀ s ∈ (lockStartup stored names).1.tail,
        ∃ n2, s = StartupStep.registerChannelListener n2) ∧
    (∃ (stored names toggles : List String),
      lockShutdownPersist
        (toggles.foldl toggleLocked (lockStartup stored names).2) ≠ stored) := by
  refine ⟨?_, ?_, ?_⟩
  · intro cs n2
    constructor
    · intro h
      obtain ⟨c0, hc0, hname⟩ := List.mem_map.mp h
      exact ⟨c0, (List.mem_filter.mp hc0).1, hname, (List.mem_filter.mp hc0).2⟩
    · intro ⟨c0, hmem, hname, hlock⟩
      exact List.mem_map.mpr ⟨c0, List.mem_filter.mpr ⟨hmem, hlock⟩, hname⟩
  · intro stored names
    constructor
    · rfl
    · intro s hs
      simp only [lockStartup, List.tail_cons] at hs
      obtain ⟨n2, _, hn2⟩ := List.mem_map.mp hs
      exact ⟨n2, hn2.symm⟩
  · exact ⟨[], ["a"], ["a"], by decide⟩

/-- C4 witness: the membership characterisation and the startup ordering at
concrete inputs. -/
theorem lock_persistence_spec_witness :
    (("a" : String) ∈
        lockShutdownPersist [LockChannel.mk "a" true, LockChannel.mk "b" false] ↔
      ∃ c0, c0 ∈ [LockChannel.mk "a" true, LockChannel.mk "b" false] ∧
        c0.name = "a" ∧ c0.locked = true) ∧
    (lockStartup ["a"] ["a", "b"]).1.head? = some (.loadLockedSet ["a"]) :=
  ⟨lock_persistence_spec.1 [LockChannel.mk "a" true, LockChannel.mk "b" false] "a",
    (lock_persistence_spec.2.1 ["a"] ["a", "b"]).1⟩
